import Mathlib

/-!
# Axon serial transport: circular buffer, UART, message framing

A shallow embedding of `core/axon/buffer.cpp`, `core/axon/uart.cpp` and
`core/utils/message.cpp`, and of `Timer1::elapsed` of `core/axon/timer.cpp`.

Conventions of the embedding.

* The target is an AVR (ATmega640, `avr/io.h`): `int` and `unsigned int` are 16 bits wide and
  `uint16_t` is `unsigned int`. An expression over `uint16_t` operands is therefore evaluated
  modulo `65536`; every such sum is written with an explicit `% 65536`.
* Bytes and 16-bit values are natural numbers; a value of type `uint8_t` is a number below `256`,
  a value of type `uint16_t` a number below `65536`.
* A pointer to bytes is a memory function `Nat → Nat` (the bytes seen from the pointer); where
  the code adds an offset to a pointer before writing, the function comes with a start address.
* `disable_interrupts` / `restore_interrupts` make the body of a buffer operation atomic: each
  operation is one function from state to state.
-/

namespace Axon

/-! ## `CBuffer` (core/axon/buffer.hpp, core/axon/buffer.cpp) -/

/-- The circular byte buffer: the members of `class CBuffer`. `m_dataptr` is the block that
`malloc` returned, seen as a function from the offset in the block to the byte stored there. -/
structure CBuffer where
  /-- The storage, `m_dataptr[i]`. -/
  m_dataptr : Nat → Nat
  /-- Allocated size of the buffer. -/
  m_size : Nat
  /-- Length of the data stored in the buffer. -/
  m_datalength : Nat
  /-- Index where the data starts. -/
  m_dataindex : Nat

namespace CBuffer

/-- The constructor `CBuffer::CBuffer()`: no storage, all counters zero. -/
def new : CBuffer :=
  { m_dataptr := fun _ => 0, m_size := 0, m_datalength := 0, m_dataindex := 0 }

/-- `CBuffer::resize(size)`. The block returned by `malloc` has indeterminate contents: the
model leaves the memory function as it is, so that the contents of the new block are whatever
the (arbitrary) buffer `b` carries. -/
def resize (b : CBuffer) (size : Nat) : CBuffer :=
  { b with m_size := size, m_dataindex := 0, m_datalength := 0 }

/-- `CBuffer::pop_front()`: the byte returned and the buffer afterwards. -/
def pop_front (b : CBuffer) : Nat × CBuffer :=
  if b.m_datalength ≠ 0 then
    let data := b.m_dataptr b.m_dataindex
    let idx := (b.m_dataindex + 1) % 65536
    let idx := if idx ≥ b.m_size then (idx + 65536 - b.m_size) % 65536 else idx
    (data, { b with m_dataindex := idx, m_datalength := (b.m_datalength + 65535) % 65536 })
  else
    (0, b)

/-- `CBuffer::push_back(data)`: the success flag and the buffer afterwards. The slot is
`(m_dataindex + m_datalength) % m_size`, the sum being a 16-bit unsigned sum. -/
def push_back (b : CBuffer) (data : Nat) : Bool × CBuffer :=
  if b.m_datalength < b.m_size then
    (true,
      { b with
        m_dataptr :=
          Function.update b.m_dataptr
            (((b.m_dataindex + b.m_datalength) % 65536) % b.m_size) data
        m_datalength := (b.m_datalength + 1) % 65536 })
  else
    (false, b)

/-- `CBuffer::operator[](i)`: the byte at logical index `i`, not removed. (With `m_size = 0`
the C++ expression divides by zero; the model then reads offset `m_dataindex + i`.) -/
def get (b : CBuffer) (i : Nat) : Nat :=
  b.m_dataptr (((b.m_dataindex + i) % 65536) % b.m_size)

/-- `CBuffer::clear()`. -/
def clear (b : CBuffer) : CBuffer :=
  { b with m_datalength := 0 }

/-- `CBuffer::pop(numbytes)`: discard bytes from the front. -/
def pop (b : CBuffer) (numbytes : Nat) : CBuffer :=
  if numbytes < b.m_datalength then
    let idx := (b.m_dataindex + numbytes) % 65536
    let idx := if idx ≥ b.m_size then (idx + 65536 - b.m_size) % 65536 else idx
    { b with
      m_dataindex := idx
      m_datalength := (b.m_datalength + 65536 - numbytes) % 65536 }
  else
    { b with m_datalength := 0 }

/-- `CBuffer::availableSize()`: `m_size - m_datalength` as a 16-bit unsigned difference. -/
def availableSize (b : CBuffer) : Nat :=
  (b.m_size + 65536 - b.m_datalength) % 65536

/-- `CBuffer::size()`. -/
def size (b : CBuffer) : Nat :=
  b.m_datalength

/-- One call on a buffer, for sequences of calls. -/
inductive Op where
  | push_back (data : Nat)
  | pop_front
  | pop (numbytes : Nat)
  | clear
  | size
  | availableSize
  | get (i : Nat)

/-- The buffer after one call. -/
def step (b : CBuffer) : Op → CBuffer
  | .push_back data => (b.push_back data).2
  | .pop_front => b.pop_front.2
  | .pop numbytes => b.pop numbytes
  | .clear => b.clear
  | .size => b
  | .availableSize => b
  | .get _ => b

/-- The buffer after a sequence of calls, first call first. -/
def run (b : CBuffer) (ops : List Op) : CBuffer :=
  ops.foldl step b

/-- Push the bytes of `data` one after the other: the flags returned, in call order, and the
buffer afterwards. -/
def pushAll (b : CBuffer) : List Nat → List Bool × CBuffer
  | [] => ([], b)
  | x :: xs =>
    let r := b.push_back x
    let rs := pushAll r.2 xs
    (r.1 :: rs.1, rs.2)

/-- Call `pop_front` `n` times: the bytes returned, in call order, and the buffer afterwards. -/
def popFronts (b : CBuffer) : Nat → List Nat × CBuffer
  | 0 => ([], b)
  | n + 1 =>
    let r := b.pop_front
    let rs := popFronts r.2 n
    (r.1 :: rs.1, rs.2)

/-- The logical contents that the state stands for: the `m_datalength` bytes stored at the
offsets `m_dataindex`, `m_dataindex + 1`, ... taken cyclically in the storage. -/
def toList (b : CBuffer) : List Nat :=
  (List.range b.m_datalength).map (fun i => b.m_dataptr ((b.m_dataindex + i) % b.m_size))

/-- The state invariant of the data model, for values typed `uint16_t`: the count does not
exceed the capacity and the head offset lies inside the storage. -/
def Inv (b : CBuffer) : Prop :=
  b.m_size < 65536 ∧ b.m_datalength ≤ b.m_size ∧ b.m_dataindex < b.m_size

instance (b : CBuffer) : Decidable b.Inv := by
  unfold Inv
  infer_instance

end CBuffer

/-! ## `UART` (core/axon/uart.hpp, core/axon/uart.cpp) -/

/-- The part of a `UART` object that the transport works on: the two buffers, the two overflow
flags, and the data register. `UDR` is the trace of the bytes written to the data register
(the bytes put on the line), oldest first; the byte read from the data register is an argument
of the receive handler. The registers of the line configuration (`PRR`, `UCSRnA`, `UCSRnB`,
`UCSRnC`, `UBRR`) are not part of the state, and the waits for the status bits `UDRE0` and
`RXC0`, which the hardware sets, are taken to end. -/
structure UART where
  /-- The bytes written to the data register, oldest first. -/
  UDR : List Nat
  /-- The receive buffer. -/
  m_rxBuffer : CBuffer
  /-- The transmit buffer. -/
  m_txBuffer : CBuffer
  /-- The receive-overflow flag. -/
  m_receiveOverflow : Bool
  /-- The transmit-overflow flag. -/
  m_transmitOverflow : Bool

namespace UART

/-- A port as the program starts. `UART0` .. `UART3` are objects of static storage duration:
their members are zero-initialised, then the constructor binds the registers and constructs the
two buffers; it assigns neither flag, so both flags start as `false`. -/
def initial : UART :=
  { UDR := []
    m_rxBuffer := CBuffer.new
    m_txBuffer := CBuffer.new
    m_receiveOverflow := false
    m_transmitOverflow := false }

/-- `UART::setup(baudrate, rxBufSize, txBufSize, parity, stop, size)`: the two `resize` calls.
The rest of the body programs the registers of the line configuration. -/
def setup (u : UART) (rxBufSize txBufSize : Nat) : UART :=
  { u with
    m_rxBuffer := u.m_rxBuffer.resize rxBufSize
    m_txBuffer := u.m_txBuffer.resize txBufSize }

/-- `UART::receiveOverflow()`. -/
def receiveOverflow (u : UART) : Bool :=
  u.m_receiveOverflow

/-- `UART::transmitOverflow()`. -/
def transmitOverflow (u : UART) : Bool :=
  u.m_transmitOverflow

/-- `UART::transmitBufferAvailableSize()`. -/
def transmitBufferAvailableSize (u : UART) : Nat :=
  u.m_txBuffer.availableSize

/-- `UART::flushReceiveBuffer()`. -/
def flushReceiveBuffer (u : UART) : UART :=
  { u with m_rxBuffer := u.m_rxBuffer.clear }

/-- `UART::flushTransmitBuffer()`. -/
def flushTransmitBuffer (u : UART) : UART :=
  { u with m_txBuffer := u.m_txBuffer.clear }

/-- `UART::receiveService(uart)`, the receive interrupt handler; `udr` is the byte read from
the data register. -/
def receiveService (u : UART) (udr : Nat) : UART :=
  let r := u.m_rxBuffer.push_back udr
  { u with m_rxBuffer := r.2, m_receiveOverflow := !r.1 }

/-- `UART::transmitService(uart)`, the transmit interrupt handler. -/
def transmitService (u : UART) : UART :=
  if u.m_txBuffer.size ≠ 0 then
    let r := u.m_txBuffer.pop_front
    { u with m_txBuffer := r.2, UDR := u.UDR ++ [r.1] }
  else
    u

/-- One pass of the loop of `sendBytes`: `m_transmitOverflow &= m_txBuffer.push_back(x)`. The
push is made whatever the flag is. -/
def pushTx (u : UART) (x : Nat) : UART :=
  let r := u.m_txBuffer.push_back x
  { u with m_txBuffer := r.2, m_transmitOverflow := u.m_transmitOverflow && r.1 }

/-- `UART::sendBytes(data, nBytes)`, run with no interrupt in between: the value returned and
the port afterwards. -/
def sendBytes (u : UART) (data : Nat → Nat) (nBytes : Nat) : Bool × UART :=
  let u1 := (List.range nBytes).foldl (fun v i => v.pushTx (data i)) u
  let u2 :=
    if u1.m_txBuffer.size = nBytes then
      let r := u1.m_txBuffer.pop_front
      { u1 with m_txBuffer := r.2, UDR := u1.UDR ++ [r.1] }
    else
      u1
  (u2.m_transmitOverflow, u2)

/-- `UART::getByte()`. `line` holds the bytes that the hardware still delivers, next one first.
While the receive buffer is empty the caller spins with interrupts enabled, and the receive
handler runs for the next byte of the line; the handler runs at no other time. The result is
the byte read, the port and the rest of the line; `none` when the wait never ends (the buffer
is empty and stays so). -/
def getByte (u : UART) (line : List Nat) : Option (Nat × UART × List Nat) :=
  if u.m_rxBuffer.size ≠ 0 then
    let r := u.m_rxBuffer.pop_front
    some (r.1, { u with m_rxBuffer := r.2 }, line)
  else
    match line with
    | [] => none
    | b :: rest => getByte (u.receiveService b) rest

/-- The loop of `getBytes`: `n` more passes of `data[i] = getByte()`, the next one writing at
address `i` of the memory `mem`. -/
def getBytesLoop (u : UART) (line : List Nat) (mem : Nat → Nat) :
    Nat → Nat → Option ((Nat → Nat) × UART × List Nat)
  | _, 0 => some (mem, u, line)
  | i, n + 1 =>
    match u.getByte line with
    | none => none
    | some (x, u1, line1) => getBytesLoop u1 line1 (Function.update mem i x) (i + 1) n

/-- `UART::getBytes(data, nBytes)`, where the pointer `data` is the address `data` in the
memory `mem`: the memory, the port and the line afterwards. -/
def getBytes (u : UART) (line : List Nat) (mem : Nat → Nat) (data nBytes : Nat) :
    Option ((Nat → Nat) × UART × List Nat) :=
  getBytesLoop u line mem data nBytes

/-- The bytes of `data[0..nBytes)` that the transmit buffer accepts in a call of `sendBytes`:
those whose `push_back` returns true, in call order. -/
def accepted (u : UART) (data : Nat → Nat) (nBytes : Nat) : List Nat :=
  (((List.range nBytes).map data).zip
      (u.m_txBuffer.pushAll ((List.range nBytes).map data)).1).filterMap
    (fun p => if p.2 then some p.1 else none)

/-- The receive side is idle: the receive buffer is empty, in a state of the data model. -/
def RxIdle (u : UART) : Prop :=
  u.m_rxBuffer.m_datalength = 0 ∧ u.m_rxBuffer.m_dataindex < u.m_rxBuffer.m_size
    ∧ u.m_rxBuffer.m_size < 65536

instance (u : UART) : Decidable u.RxIdle := by
  unfold RxIdle
  infer_instance

/-- The memory `mem` after the bytes `bs` have been stored from address `i` on. -/
def store (mem : Nat → Nat) (i : Nat) : List Nat → Nat → Nat
  | [] => mem
  | b :: bs => store (Function.update mem i b) (i + 1) bs

end UART

/-! ## `Message` (core/utils/message.hpp, core/utils/message.cpp) -/

namespace Message

/-- `compute_checksum(msg, len, c1, c2)`: the pair `(c1, c2)`, both 8-bit accumulators. -/
def compute_checksum (msg : Nat → Nat) (len : Nat) : Nat × Nat :=
  (List.range len).foldl
    (fun c i => ((c.1 + msg i) % 256, (c.2 + (c.1 + msg i) % 256) % 256)) (0, 0)

/-- The loop `while(true)` of `receive` that looks for the message start: each pass moves `c2`
to `c1`, reads the next byte into `c2` and leaves when `(c1, c2)` is the signature. A pass takes
one byte from the buffer or the line, so `fuel` passes are enough when `fuel` exceeds the number
of bytes in both. -/
def findStart (sig : Nat → Nat) : Nat → Nat → UART → List Nat → Option (UART × List Nat)
  | 0, _, _, _ => none
  | fuel + 1, c2, u, line =>
    match u.getByte line with
    | none => none
    | some (c, u1, line1) =>
      if c2 = sig 0 ∧ c = sig 1 then some (u1, line1) else findStart sig fuel c u1 line1

/-- `Message::receive(uart, sig, msg, maxlen)`: the length returned, the memory `msg`, the port
and the line afterwards; `none` when a read waits for ever. The length field is read as a
little-endian `uint16_t`, and `len + 4` is a 16-bit sum. -/
def receive (u : UART) (line : List Nat) (sig msg : Nat → Nat) (maxlen : Nat) :
    Option (Nat × (Nat → Nat) × UART × List Nat) :=
  match u.getByte line with
  | none => none
  | some (c2, u1, line1) =>
    match findStart sig (u1.m_rxBuffer.size + line1.length + 1) c2 u1 line1 with
    | none => none
    | some (u2, line2) =>
      match u2.getBytes line2 msg 0 4 with
      | none => none
      | some (msg1, u3, line3) =>
        let len := msg1 2 + 256 * msg1 3
        if (len + 4) % 65536 > maxlen then
          some (0, msg1, u3, line3)
        else
          match u3.getBytes line3 msg1 4 len with
          | none => none
          | some (msg2, u4, line4) =>
            match u4.getBytes line4 (fun _ => 0) 0 2 with
            | none => none
            | some (check, u5, line5) =>
              let c := compute_checksum msg2 ((len + 4) % 65536)
              if check 0 = c.1 ∧ check 1 = c.2 then
                some ((len + 4) % 65536, msg2, u5, line5)
              else
                some (0, msg2, u5, line5)

/-- `Message::send(uart, sig, msg, len)`: the port afterwards. -/
def send (u : UART) (sig msg : Nat → Nat) (len : Nat) : UART :=
  let u1 := (u.sendBytes sig 2).2
  let u2 := (u1.sendBytes msg len).2
  let c := compute_checksum msg len
  (u2.sendBytes (fun i => if i = 0 then c.1 else c.2) 2).2

/-- The frame of the wire format for the message `msg[0..len)`: the two signature bytes, the
message bytes, and the two checksum bytes of the message. -/
def frame (sig msg : Nat → Nat) (len : Nat) : List Nat :=
  sig 0 :: sig 1 ::
    ((List.range len).map msg ++ [(compute_checksum msg len).1, (compute_checksum msg len).2])

/-- The signature `AA 55` of the end-to-end scenario. -/
def exampleSig : Nat → Nat :=
  fun i => [0xAA, 0x55].getD i 0

/-- The message of the end-to-end scenario: class `01`, id `02`, length `0003`, payload
`10 20 30`. -/
def exampleMsg : Nat → Nat :=
  fun i => [0x01, 0x02, 0x03, 0x00, 0x10, 0x20, 0x30].getD i 0

/-- The part of `receive` that follows the search for the message start: the header, the check
of the length against `maxlen`, the payload and the checksum. -/
def afterStart (u : UART) (line : List Nat) (msg : Nat → Nat) (maxlen : Nat) :
    Option (Nat × (Nat → Nat) × UART × List Nat) :=
  match u.getBytes line msg 0 4 with
  | none => none
  | some (msg1, u3, line3) =>
    let len := msg1 2 + 256 * msg1 3
    if (len + 4) % 65536 > maxlen then
      some (0, msg1, u3, line3)
    else
      match u3.getBytes line3 msg1 4 len with
      | none => none
      | some (msg2, u4, line4) =>
        match u4.getBytes line4 (fun _ => 0) 0 2 with
        | none => none
        | some (check, u5, line5) =>
          let c := compute_checksum msg2 ((len + 4) % 65536)
          if check 0 = c.1 ∧ check 1 = c.2 then
            some ((len + 4) % 65536, msg2, u5, line5)
          else
            some (0, msg2, u5, line5)

/-- No two adjacent bytes of the list are the signature `(sig[0], sig[1])`. -/
def noSig (sig : Nat → Nat) : List Nat → Prop
  | a :: b :: rest => ¬ (a = sig 0 ∧ b = sig 1) ∧ noSig sig (b :: rest)
  | _ => True

/-- The bytes that the transmit buffer accepts in a call of `send`: those of its three calls of
`sendBytes`, in order. -/
def handed (u : UART) (sig msg : Nat → Nat) (len : Nat) : List Nat :=
  let u1 := (u.sendBytes sig 2).2
  let u2 := (u1.sendBytes msg len).2
  let c := compute_checksum msg len
  u.accepted sig 2 ++ u1.accepted msg len
    ++ u2.accepted (fun i => if i = 0 then c.1 else c.2) 2

/-- `Message::canSend(uart, msglen)`; `msglen + 4` is a 16-bit sum. -/
def canSend (u : UART) (msglen : Nat) : Bool :=
  decide (u.transmitBufferAvailableSize ≥ (msglen + 4) % 65536)

end Message

/-! ## `Timer1` (core/axon/timer.hpp, core/axon/timer.cpp) -/

namespace Timer1

/-- `F_CPU` of common.hpp: the 16 MHz processor clock. -/
def F_CPU : Nat := 16000000

/-- The table `prescalingFactors` of timer.cpp. -/
def prescalingFactors : List Nat := [0, 1, 8, 64, 256, 1024]

/-- `_getTimerPrescaleFactor(TCCRxB)`: the entry of the table at index `TCCRxB & 0x07`. (The
indices 6 and 7 lie beyond the table; the model reads `0` there.) -/
def _getTimerPrescaleFactor (TCCRxB : Nat) : Nat :=
  prescalingFactors.getD (TCCRxB % 8) 0

/-- `Timer1::elapsed()`, from the counter register `TCNT1`, the overflow count
`timer1_overflow_count` and the control register `TCCR1B`. `65536` and `F_CPU` are `long`
constants, so `ticks` is a 32-bit value; the product of the `uint16_t` prescale factor and the
`int` constant `1000` is a 16-bit unsigned product. (With a prescale factor of `0` the C++
expression divides by zero; the model then returns `0`.) -/
def elapsed (TCNT1 timer1_overflow_count TCCR1B : Nat) : Nat :=
  let ticks := (TCNT1 + 65536 * timer1_overflow_count) % 4294967296
  let ticksPerMs := (F_CPU / ((_getTimerPrescaleFactor TCCR1B * 1000) % 65536)) % 4294967296
  ticks / ticksPerMs

end Timer1

/-! ## Facts about `CBuffer` -/

namespace CBuffer

theorem step_size (b : CBuffer) (op : Op) : (b.step op).m_size = b.m_size := by
  cases op <;> simp only [step, push_back, pop_front, pop, clear] <;> split <;> rfl

theorem step_inv (b : CBuffer) (op : Op) (h : b.Inv) : (b.step op).Inv := by
  obtain ⟨h1, h2, h3⟩ := h
  cases op <;> simp only [step, push_back, pop_front, pop, clear, Inv]
  · split <;> simp only [] <;> omega
  · split
    · split <;> simp only [] <;> omega
    · simp only []; omega
  · split
    · split <;> simp only [] <;> omega
    · simp only []; omega
  all_goals omega

theorem run_inv (ops : List Op) (b : CBuffer) (h : b.Inv) :
    (b.run ops).Inv ∧ (b.run ops).m_size = b.m_size := by
  induction ops generalizing b with
  | nil => exact ⟨h, rfl⟩
  | cons op ops ih =>
    have := ih (b.step op) (step_inv b op h)
    simp only [run, List.foldl_cons] at this ⊢
    rw [step_size] at this
    exact this

theorem pushAll_flags (data : List Nat) (b : CBuffer) (hs : b.m_size < 65536)
    (hl : b.m_datalength ≤ b.m_size) :
    (b.pushAll data).1
        = List.replicate (min (b.m_size - b.m_datalength) data.length) true
          ++ List.replicate (data.length - (b.m_size - b.m_datalength)) false
      ∧ (b.pushAll data).2.m_datalength = min b.m_size (b.m_datalength + data.length)
      ∧ (b.pushAll data).2.m_size = b.m_size := by
  induction data generalizing b with
  | nil => simp [pushAll]; omega
  | cons x xs ih =>
    by_cases hfull : b.m_datalength < b.m_size
    · have hp : b.push_back x
          = (true,
            { b with
              m_dataptr :=
                Function.update b.m_dataptr
                  (((b.m_dataindex + b.m_datalength) % 65536) % b.m_size) x
              m_datalength := (b.m_datalength + 1) % 65536 }) := by
        simp [push_back, hfull]
      have hlen : (b.m_datalength + 1) % 65536 = b.m_datalength + 1 := by omega
      obtain ⟨i1, i2, i3⟩ := ih (b.push_back x).2 (by rw [hp]; exact hs)
        (by rw [hp]; simp only []; omega)
      simp only [pushAll, i1, i2, i3]
      rw [hp]
      simp only [hlen, List.length_cons]
      have e1 : min (b.m_size - b.m_datalength) (xs.length + 1)
          = min (b.m_size - (b.m_datalength + 1)) xs.length + 1 := by omega
      have e2 : xs.length + 1 - (b.m_size - b.m_datalength)
          = xs.length - (b.m_size - (b.m_datalength + 1)) := by omega
      rw [e1, e2, List.replicate_succ]
      refine ⟨by simp, by omega, trivial⟩
    · have hp : b.push_back x = (false, b) := by simp [push_back, hfull]
      obtain ⟨i1, i2, i3⟩ := ih b hs hl
      simp only [pushAll, hp, i1, i2, i3, List.length_cons]
      have e0 : b.m_size - b.m_datalength = 0 := by omega
      simp only [e0, Nat.zero_min, List.replicate_zero, List.nil_append, Nat.sub_zero,
        List.replicate_succ]
      refine ⟨trivial, by omega, trivial⟩

theorem mod_of_lt_two_mul (a N : Nat) (h : a < 2 * N) :
    a % N = if a < N then a else a - N := by
  by_cases ha : a < N
  · rw [if_pos ha, Nat.mod_eq_of_lt ha]
  · rw [if_neg ha, Nat.mod_eq_sub_mod (by omega), Nat.mod_eq_of_lt (by omega)]

/-- A push that does not overflow the 16-bit sum appends at the tail. -/
theorem push_back_toList (b : CBuffer) (x : Nat) (h : b.Inv) (hl : b.m_datalength < b.m_size)
    (hw : b.m_dataindex + b.m_datalength < 65536) :
    (b.push_back x).1 = true
      ∧ (b.push_back x).2.toList = b.toList ++ [x]
      ∧ (b.push_back x).2.m_dataindex = b.m_dataindex
      ∧ (b.push_back x).2.m_size = b.m_size
      ∧ (b.push_back x).2.m_datalength = b.m_datalength + 1 := by
  obtain ⟨h1, h2, h3⟩ := h
  have e1 : (b.m_datalength + 1) % 65536 = b.m_datalength + 1 := by omega
  have e2 : (b.m_dataindex + b.m_datalength) % 65536 = b.m_dataindex + b.m_datalength := by
    omega
  simp only [push_back, hl, if_true, e1, e2, toList, true_and, and_true]
  rw [List.range_succ, List.map_append, List.map_singleton, Function.update_same]
  congr 1
  apply List.map_congr_left
  intro i hi
  rw [List.mem_range] at hi
  rw [Function.update_noteq]
  rw [mod_of_lt_two_mul _ _ (show b.m_dataindex + i < 2 * b.m_size by omega),
    mod_of_lt_two_mul _ _ (show b.m_dataindex + b.m_datalength < 2 * b.m_size by omega)]
  split <;> split <;> omega

/-- A pop from a non-empty buffer removes the head of the logical contents. -/
theorem pop_front_toList (b : CBuffer) (h : b.Inv) (hl : b.m_datalength ≠ 0) :
    b.toList = b.pop_front.1 :: b.pop_front.2.toList
      ∧ b.pop_front.2.m_dataindex = (b.m_dataindex + 1) % b.m_size
      ∧ b.pop_front.2.m_size = b.m_size
      ∧ b.pop_front.2.m_datalength + 1 = b.m_datalength
      ∧ b.pop_front.2.m_dataptr = b.m_dataptr := by
  obtain ⟨h1, h2, h3⟩ := h
  have e1 : (b.m_dataindex + 1) % 65536 = b.m_dataindex + 1 := by omega
  have e3 : (b.m_datalength + 65535) % 65536 = b.m_datalength - 1 := by omega
  have e4 : (if b.m_dataindex + 1 ≥ b.m_size
      then (b.m_dataindex + 1 + 65536 - b.m_size) % 65536 else b.m_dataindex + 1)
      = (b.m_dataindex + 1) % b.m_size := by
    rw [mod_of_lt_two_mul _ _ (show b.m_dataindex + 1 < 2 * b.m_size by omega)]
    split <;> split <;> omega
  have hp : b.pop_front = (b.m_dataptr b.m_dataindex,
      { b with m_dataindex := (b.m_dataindex + 1) % b.m_size,
               m_datalength := b.m_datalength - 1 }) := by
    simp only [pop_front, hl, ne_eq, not_false_eq_true, if_true, e1, e3, e4]
  rw [hp]
  refine ⟨?_, rfl, rfl, by simp only []; omega, rfl⟩
  obtain ⟨n, hn⟩ : ∃ n, b.m_datalength = n + 1 := ⟨b.m_datalength - 1, by omega⟩
  simp only [toList, hn, Nat.add_sub_cancel]
  rw [List.range_succ_eq_map, List.map_cons, List.map_map]
  have e5 : (b.m_dataindex + 0) % b.m_size = b.m_dataindex := Nat.mod_eq_of_lt h3
  refine congrArg₂ List.cons (congrArg b.m_dataptr e5) ?_
  apply List.map_congr_left
  intro i _
  have e6 : ((b.m_dataindex + 1) % b.m_size + i) % b.m_size
      = (b.m_dataindex + Nat.succ i) % b.m_size := by
    rw [Nat.mod_add_mod, Nat.succ_eq_add_one]
    exact congrArg (· % b.m_size) (by omega)
  exact (congrArg b.m_dataptr e6).symm

theorem ext_fields (b c : CBuffer) (h1 : b.m_dataptr = c.m_dataptr) (h2 : b.m_size = c.m_size)
    (h3 : b.m_datalength = c.m_datalength) (h4 : b.m_dataindex = c.m_dataindex) : b = c := by
  cases b
  cases c
  simp only [] at h1 h2 h3 h4
  subst h1 h2 h3 h4
  rfl

/-- Pushes that neither fill the buffer nor overflow the 16-bit sum append their bytes. -/
theorem pushAll_toList (xs : List Nat) (b : CBuffer) (h : b.Inv)
    (hl : b.m_datalength + xs.length ≤ b.m_size)
    (hw : b.m_dataindex + b.m_datalength + xs.length ≤ 65536) :
    (b.pushAll xs).1 = List.replicate xs.length true
      ∧ (b.pushAll xs).2.toList = b.toList ++ xs
      ∧ (b.pushAll xs).2.m_dataindex = b.m_dataindex
      ∧ (b.pushAll xs).2.m_size = b.m_size
      ∧ (b.pushAll xs).2.m_datalength = b.m_datalength + xs.length := by
  induction xs generalizing b with
  | nil => simp [pushAll]
  | cons x xs ih =>
    rw [List.length_cons] at hl hw
    obtain ⟨p1, p2, p3, p4, p5⟩ := push_back_toList b x h (by omega) (by omega)
    have hinv : (b.push_back x).2.Inv := by
      obtain ⟨h1, h2, h3⟩ := h
      refine ⟨?_, ?_, ?_⟩
      · rw [p4]; exact h1
      · rw [p4, p5]; omega
      · rw [p3, p4]; exact h3
    obtain ⟨i1, i2, i3, i4, i5⟩ := ih (b.push_back x).2 hinv (by rw [p5, p4]; omega)
      (by rw [p3, p5]; omega)
    simp only [pushAll, List.length_cons, List.replicate_succ]
    refine ⟨?_, ?_, ?_, ?_, ?_⟩
    · rw [p1, i1]
    · rw [i2, p2, List.append_assoc, List.singleton_append]
    · rw [i3, p3]
    · rw [i4, p4]
    · rw [i5, p5]; omega

/-- Pops from a buffer that holds at least `k` bytes return the first `k` bytes of the logical
contents and leave the rest. -/
theorem popFronts_toList (k : Nat) (b : CBuffer) (h : b.Inv) (hk : k ≤ b.m_datalength) :
    (b.popFronts k).1 = b.toList.take k
      ∧ (b.popFronts k).2.toList = b.toList.drop k
      ∧ (b.popFronts k).2.m_dataindex = (b.m_dataindex + k) % b.m_size
      ∧ (b.popFronts k).2.m_size = b.m_size
      ∧ (b.popFronts k).2.m_datalength + k = b.m_datalength
      ∧ (b.popFronts k).2.m_dataptr = b.m_dataptr := by
  induction k generalizing b with
  | zero =>
    refine ⟨by simp [popFronts], by simp [popFronts], ?_, rfl, rfl, rfl⟩
    exact (Nat.mod_eq_of_lt h.2.2).symm
  | succ k ih =>
    obtain ⟨p1, p2, p3, p4, p5⟩ := pop_front_toList b h (by omega)
    have hinv : b.pop_front.2.Inv := by
      obtain ⟨h1, h2, h3⟩ := h
      refine ⟨?_, ?_, ?_⟩
      · rw [p3]; exact h1
      · rw [p3]; omega
      · rw [p2, p3]; exact Nat.mod_lt _ (by omega)
    obtain ⟨i1, i2, i3, i4, i5, i6⟩ := ih b.pop_front.2 hinv (by omega)
    simp only [popFronts]
    refine ⟨?_, ?_, ?_, ?_, ?_, ?_⟩
    · rw [i1, p1, List.take_succ_cons]
    · rw [i2, p1, List.drop_succ_cons]
    · rw [i3, p2, p3, Nat.mod_add_mod]
      exact congrArg (· % b.m_size) (by omega)
    · rw [i4, p3]
    · omega
    · rw [i6, p5]

/-- The byte stored at logical position `j`, read off the logical contents. -/
theorem toList_getElem? (b : CBuffer) (j : Nat) (hj : j < b.m_datalength) :
    b.toList[j]? = some (b.m_dataptr ((b.m_dataindex + j) % b.m_size)) := by
  simp only [toList, List.getElem?_map, List.getElem?_range hj, Option.map_some']

/-- The state reached from `resize(N)` by pushing the `N` bytes `xs` and then calling
`pop_front` `k` times, for `k` below the capacity: every push is accepted, the pops return the
first `k` bytes, and the storage holds `xs`. -/
theorem fill_then_pop (c : CBuffer) (N k : Nat) (xs : List Nat) (hN : N < 65536)
    (hx : xs.length = N) (hk : k < N) :
    ((c.resize N).pushAll xs).1 = List.replicate N true
      ∧ (((c.resize N).pushAll xs).2.popFronts k).1 = xs.take k
      ∧ ∃ m : Nat → Nat, (∀ j, j < N → xs[j]? = some (m j))
          ∧ (((c.resize N).pushAll xs).2.popFronts k).2
            = { m_dataptr := m, m_size := N, m_datalength := N - k, m_dataindex := k } := by
  have h0 : (c.resize N).Inv := by simp only [Inv, resize]; omega
  obtain ⟨p1, p2, p3, p4, p5⟩ := pushAll_toList xs (c.resize N) h0
    (by rw [hx]; simp only [resize]; omega) (by rw [hx]; simp only [resize]; omega)
  rw [hx] at p1 p5
  have e3 : (c.resize N).m_dataindex = 0 := rfl
  have e4 : (c.resize N).m_size = N := rfl
  have e5 : (c.resize N).m_datalength = 0 := rfl
  have e6 : (c.resize N).toList = [] := by simp only [toList, e5, List.range_zero, List.map_nil]
  rw [e3] at p3
  rw [e4] at p4
  rw [e5, Nat.zero_add] at p5
  rw [e6, List.nil_append] at p2
  have h1 : ((c.resize N).pushAll xs).2.Inv := by
    simp only [Inv, p3, p4, p5]; omega
  obtain ⟨q1, q2, q3, q4, q5, q6⟩ := popFronts_toList k _ h1 (by rw [p5]; omega)
  rw [p2] at q1
  rw [p3, p4, Nat.zero_add, Nat.mod_eq_of_lt hk] at q3
  rw [p4] at q4
  rw [p5] at q5
  refine ⟨p1, q1, ((c.resize N).pushAll xs).2.m_dataptr, ?_, ?_⟩
  · intro j hj
    have hg := toList_getElem? _ j (show j < _ by rw [p5]; exact hj)
    rw [p2, p3, p4, Nat.zero_add, Nat.mod_eq_of_lt hj] at hg
    exact hg
  · refine ext_fields _ _ q6 q4 ?_ q3
    show _ = N - k
    omega

/-! ### Queue order on a buffer of at most 32768 bytes -/

/-- C3. `push_back` returns false if and only if `size()` equals the capacity at the time of
the call; when `size()` is below the capacity it returns true and `size()` grows by exactly
one. (The buffer is in a state of the data model: count at most the 16-bit capacity.) -/
theorem push_back_false_iff_full (b : CBuffer) (data : Nat) (hs : b.m_size < 65536)
    (hl : b.m_datalength ≤ b.m_size) :
    ((b.push_back data).1 = false ↔ b.size = b.m_size)
      ∧ (b.size < b.m_size →
          (b.push_back data).1 = true ∧ (b.push_back data).2.size = b.size + 1) := by
  simp only [push_back, size]
  constructor
  · split
    · simp; omega
    · simp; omega
  · intro h
    simp only [h, if_true, true_and]
    omega

theorem push_back_false_iff_full_witness :
    (CBuffer.new.resize 2).m_size < 65536
      ∧ (CBuffer.new.resize 2).m_datalength ≤ (CBuffer.new.resize 2).m_size
      ∧ (((CBuffer.new.resize 2).push_back 7).1 = false ↔ (CBuffer.new.resize 2).size = 2)
      ∧ ((CBuffer.new.resize 2).push_back 7).1 = true
      ∧ ((CBuffer.new.resize 2).push_back 7).2.size = (CBuffer.new.resize 2).size + 1 :=
  ⟨by decide, by decide,
    (push_back_false_iff_full (CBuffer.new.resize 2) 7 (by decide) (by decide)).1,
    (push_back_false_iff_full (CBuffer.new.resize 2) 7 (by decide) (by decide)).2 (by decide)⟩

/-- C4. Capacity invariant: after `resize(N)` with `N ≥ 1`, every sequence of `push_back`,
`pop_front`, `pop(n)` (any `n`), `clear`, `size`, `availableSize` and indexed peek leaves the
count at most `N` and the head offset below `N`; the capacity stays `N`. -/
theorem capacity_invariant (b : CBuffer) (N : Nat) (h1 : 1 ≤ N) (h2 : N < 65536)
    (ops : List Op) :
    ((b.resize N).run ops).m_size = N
      ∧ ((b.resize N).run ops).size ≤ N
      ∧ ((b.resize N).run ops).m_dataindex < N := by
  have h0 : (b.resize N).Inv := by simp only [Inv, resize]; omega
  obtain ⟨⟨_, i2, i3⟩, i4⟩ := run_inv ops (b.resize N) h0
  have hN : (b.resize N).m_size = N := rfl
  rw [hN] at i4
  rw [i4] at i2 i3
  exact ⟨i4, i2, i3⟩

theorem capacity_invariant_witness :
    ((CBuffer.new.resize 2).run [.push_back 1, .push_back 2, .push_back 3, .pop 7]).m_size = 2
      ∧ ((CBuffer.new.resize 2).run [.push_back 1, .push_back 2, .push_back 3, .pop 7]).size ≤ 2
      ∧ ((CBuffer.new.resize 2).run
          [.push_back 1, .push_back 2, .push_back 3, .pop 7]).m_dataindex < 2 :=
  capacity_invariant CBuffer.new 2 (by decide) (by decide)
    [.push_back 1, .push_back 2, .push_back 3, .pop 7]

/-- C5. Reject-on-full: a `push_back` on a full buffer returns false and leaves the buffer as
it was: the same count, head offset, capacity and storage, hence the same result of every
indexed peek and of every later run of `pop_front` calls. -/
theorem push_back_full_unchanged (b : CBuffer) (data : Nat) (h : b.size = b.m_size) :
    (b.push_back data).1 = false
      ∧ (b.push_back data).2 = b
      ∧ (∀ i, (b.push_back data).2.get i = b.get i)
      ∧ (∀ n, (b.push_back data).2.popFronts n = b.popFronts n) := by
  have hp : b.push_back data = (false, b) := by
    simp only [size] at h
    simp [push_back, h]
  rw [hp]
  exact ⟨rfl, rfl, fun _ => rfl, fun _ => rfl⟩

theorem push_back_full_unchanged_witness :
    (((CBuffer.new.resize 1).push_back 5).2.push_back 6).1 = false
      ∧ (((CBuffer.new.resize 1).push_back 5).2.push_back 6).2
          = ((CBuffer.new.resize 1).push_back 5).2
      ∧ (∀ i, (((CBuffer.new.resize 1).push_back 5).2.push_back 6).2.get i
          = ((CBuffer.new.resize 1).push_back 5).2.get i)
      ∧ (∀ n, (((CBuffer.new.resize 1).push_back 5).2.push_back 6).2.popFronts n
          = ((CBuffer.new.resize 1).push_back 5).2.popFronts n) :=
  push_back_full_unchanged ((CBuffer.new.resize 1).push_back 5).2 6 (by decide)

/-- C6. Overflow signalling: pushing `C + k` bytes (`k > 0`) into an empty buffer of capacity
`C` returns true for the first `C` calls and false for the remaining `k`; the final `size()` is
`C`. -/
theorem overflow_signalling (b : CBuffer) (C k : Nat) (hC : C < 65536) (hk : 0 < k)
    (data : List Nat) (hd : data.length = C + k) :
    ((b.resize C).pushAll data).1 = List.replicate C true ++ List.replicate k false
      ∧ ((b.resize C).pushAll data).2.size = C := by
  obtain ⟨i1, i2, _⟩ := pushAll_flags data (b.resize C) hC (by simp [resize])
  have hz : (b.resize C).m_datalength = 0 := rfl
  have hsz : (b.resize C).m_size = C := rfl
  rw [hz, hsz, hd] at i1 i2
  simp only [Nat.sub_zero, Nat.zero_add] at i1 i2
  simp only [size]
  refine ⟨?_, ?_⟩
  · rw [i1]
    have e1 : min C (C + k) = C := by omega
    have e2 : C + k - C = k := by omega
    rw [e1, e2]
  · rw [i2]; omega

theorem overflow_signalling_witness :
    ((CBuffer.new.resize 2).pushAll [10, 20, 30]).1
        = List.replicate 2 true ++ List.replicate 1 false
      ∧ ((CBuffer.new.resize 2).pushAll [10, 20, 30]).2.size = 2 :=
  overflow_signalling CBuffer.new 2 1 (by decide) (by decide) [10, 20, 30] rfl

end CBuffer

/-! ## Facts about `UART` -/

namespace UART

/-- The loop of `sendBytes` pushes the bytes in order and accumulates the flag with `&&`. -/
theorem foldl_pushTx (xs : List Nat) (u : UART) :
    (xs.foldl pushTx u).m_txBuffer = (u.m_txBuffer.pushAll xs).2
      ∧ (xs.foldl pushTx u).m_transmitOverflow
          = (u.m_transmitOverflow && (u.m_txBuffer.pushAll xs).1.all id)
      ∧ (xs.foldl pushTx u).UDR = u.UDR
      ∧ (xs.foldl pushTx u).m_rxBuffer = u.m_rxBuffer
      ∧ (xs.foldl pushTx u).m_receiveOverflow = u.m_receiveOverflow := by
  induction xs generalizing u with
  | nil => simp [CBuffer.pushAll]
  | cons x xs ih =>
    obtain ⟨i1, i2, i3, i4, i5⟩ := ih (u.pushTx x)
    rw [List.foldl_cons, i1, i2, i3, i4, i5]
    refine ⟨rfl, ?_, rfl, rfl, rfl⟩
    simp only [CBuffer.pushAll, pushTx, List.all_cons, id, Bool.and_assoc]

theorem sendBytes_loop (u : UART) (data : Nat → Nat) (n : Nat) :
    (List.range n).foldl (fun v i => v.pushTx (data i)) u
      = ((List.range n).map data).foldl pushTx u := by
  rw [List.foldl_map]

/-- While the flag is `false`, `sendBytes` returns `false` and leaves the flag `false`. -/
theorem sendBytes_flag_false (u : UART) (data : Nat → Nat) (n : Nat)
    (h : u.m_transmitOverflow = false) :
    (u.sendBytes data n).1 = false ∧ (u.sendBytes data n).2.m_transmitOverflow = false := by
  obtain ⟨_, i2, _⟩ := foldl_pushTx ((List.range n).map data) u
  rw [h, Bool.false_and] at i2
  simp only [sendBytes, sendBytes_loop]
  split <;> simp only [i2, and_self]

/-! ### The transmit side -/

theorem map_range_head (data : Nat → Nat) (n : Nat) (hn : 0 < n) :
    (List.range n).map data = data 0 :: ((List.range n).map data).tail := by
  cases n with
  | zero => omega
  | succ m =>
    rw [List.range_succ_eq_map]
    rfl

/-- `sendBytes` on a port whose transmit buffer is not empty and has room for the `n` bytes:
the bytes are appended to the buffer and nothing is written to the data register. -/
theorem sendBytes_busy (u : UART) (data : Nat → Nat) (n : Nat) (h : u.m_txBuffer.Inv)
    (h0 : u.m_txBuffer.m_datalength ≠ 0)
    (hl : u.m_txBuffer.m_datalength + n ≤ u.m_txBuffer.m_size)
    (hw : u.m_txBuffer.m_dataindex + u.m_txBuffer.m_datalength + n ≤ 65536) :
    (u.sendBytes data n).2.UDR = u.UDR
      ∧ (u.sendBytes data n).2.m_txBuffer.toList
          = u.m_txBuffer.toList ++ (List.range n).map data
      ∧ (u.sendBytes data n).2.m_txBuffer.m_dataindex = u.m_txBuffer.m_dataindex
      ∧ (u.sendBytes data n).2.m_txBuffer.m_size = u.m_txBuffer.m_size
      ∧ (u.sendBytes data n).2.m_txBuffer.m_datalength = u.m_txBuffer.m_datalength + n := by
  have hlen : ((List.range n).map data).length = n := by
    rw [List.length_map, List.length_range]
  obtain ⟨f1, _, f3, _, _⟩ := foldl_pushTx ((List.range n).map data) u
  obtain ⟨_, p2, p3, p4, p5⟩ := CBuffer.pushAll_toList ((List.range n).map data) u.m_txBuffer h
    (by rw [hlen]; exact hl) (by rw [hlen]; exact hw)
  rw [hlen] at p5
  rw [← f1] at p2 p3 p4 p5
  have hne : ¬ ((List.foldl pushTx u ((List.range n).map data)).m_txBuffer.size = n) := by
    simp only [CBuffer.size, p5]; omega
  simp only [sendBytes, sendBytes_loop, hne, if_false]
  exact ⟨f3, p2, p3, p4, p5⟩

/-- `sendBytes` of `n > 0` bytes on a port whose transmit buffer is empty and can hold them:
the first byte is written to the data register, the others wait in the buffer. -/
theorem sendBytes_idle (u : UART) (data : Nat → Nat) (n : Nat) (h : u.m_txBuffer.Inv)
    (h0 : u.m_txBuffer.m_datalength = 0) (hn : 0 < n) (hl : n ≤ u.m_txBuffer.m_size)
    (hw : u.m_txBuffer.m_dataindex + n ≤ 65536) :
    (u.sendBytes data n).2.UDR = u.UDR ++ [data 0]
      ∧ (u.sendBytes data n).2.m_txBuffer.toList = ((List.range n).map data).tail
      ∧ (u.sendBytes data n).2.m_txBuffer.m_dataindex
          = (u.m_txBuffer.m_dataindex + 1) % u.m_txBuffer.m_size
      ∧ (u.sendBytes data n).2.m_txBuffer.m_size = u.m_txBuffer.m_size
      ∧ (u.sendBytes data n).2.m_txBuffer.m_datalength + 1 = n := by
  have hlen : ((List.range n).map data).length = n := by
    rw [List.length_map, List.length_range]
  obtain ⟨f1, _, f3, _, _⟩ := foldl_pushTx ((List.range n).map data) u
  obtain ⟨_, p2, p3, p4, p5⟩ := CBuffer.pushAll_toList ((List.range n).map data) u.m_txBuffer h
    (by rw [hlen, h0]; omega) (by rw [hlen, h0]; omega)
  have hnil : u.m_txBuffer.toList = [] := by
    simp only [CBuffer.toList, h0, List.range_zero, List.map_nil]
  rw [hlen, h0, Nat.zero_add] at p5
  rw [hnil, List.nil_append] at p2
  rw [← f1] at p2 p3 p4 p5
  have heq : (List.foldl pushTx u ((List.range n).map data)).m_txBuffer.size = n := p5
  simp only [sendBytes, sendBytes_loop, heq, if_true]
  clear f1 heq
  generalize List.foldl pushTx u ((List.range n).map data) = w at f3 p2 p3 p4 p5 ⊢
  have hinv : w.m_txBuffer.Inv := by
    obtain ⟨h1, h2, h3⟩ := h
    exact ⟨by rw [p4]; exact h1, by rw [p4, p5]; exact hl, by rw [p3, p4]; exact h3⟩
  obtain ⟨q1, q2, q3, q4, _⟩ := CBuffer.pop_front_toList _ hinv (by rw [p5]; omega)
  rw [p2, map_range_head data n hn, List.cons.injEq] at q1
  refine ⟨?_, ?_, ?_, ?_, ?_⟩
  · rw [f3, ← q1.1]
  · rw [← q1.2]
  · rw [q2, p3, p4]
  · rw [q3, p4]
  · rw [q4, p5]

/-- Runs of the transmit handler on a transmit buffer that holds at least `k` bytes write the
first `k` bytes of the buffer to the data register, in order. -/
theorem transmitService_iterate (k : Nat) (u : UART) (h : u.m_txBuffer.Inv)
    (hk : k ≤ u.m_txBuffer.m_datalength) :
    (transmitService^[k] u).UDR = u.UDR ++ u.m_txBuffer.toList.take k
      ∧ (transmitService^[k] u).m_txBuffer.toList = u.m_txBuffer.toList.drop k
      ∧ (transmitService^[k] u).m_txBuffer.m_datalength + k = u.m_txBuffer.m_datalength := by
  induction k generalizing u with
  | zero => simp
  | succ k ih =>
    have hne : u.m_txBuffer.size ≠ 0 := by simp only [CBuffer.size]; omega
    obtain ⟨q1, q2, q3, q4, _⟩ := CBuffer.pop_front_toList u.m_txBuffer h (by omega)
    have hstep : u.transmitService
        = { u with m_txBuffer := u.m_txBuffer.pop_front.2,
                   UDR := u.UDR ++ [u.m_txBuffer.pop_front.1] } := by
      simp only [transmitService, hne, ne_eq, not_false_eq_true, if_true]
    have hinv : u.transmitService.m_txBuffer.Inv := by
      rw [hstep]
      obtain ⟨h1, h2, h3⟩ := h
      refine ⟨?_, ?_, ?_⟩
      · show u.m_txBuffer.pop_front.2.m_size < 65536
        rw [q3]; exact h1
      · show u.m_txBuffer.pop_front.2.m_datalength ≤ u.m_txBuffer.pop_front.2.m_size
        rw [q3]; omega
      · show u.m_txBuffer.pop_front.2.m_dataindex < u.m_txBuffer.pop_front.2.m_size
        rw [q2, q3]; exact Nat.mod_lt _ (by omega)
    have hlen2 : u.transmitService.m_txBuffer.m_datalength + 1 = u.m_txBuffer.m_datalength := by
      rw [hstep]; exact q4
    obtain ⟨i1, i2, i3⟩ := ih u.transmitService hinv (by omega)
    rw [Function.iterate_succ_apply, i1, i2]
    have hU : u.transmitService.UDR = u.UDR ++ [u.m_txBuffer.pop_front.1] := by rw [hstep]
    have hT : u.transmitService.m_txBuffer.toList = u.m_txBuffer.pop_front.2.toList := by
      rw [hstep]
    rw [hU, hT, q1, List.take_succ_cons, List.drop_succ_cons, List.append_assoc,
      List.singleton_append]
    exact ⟨rfl, rfl, by omega⟩

/-! ### The receive side, read from an empty buffer -/

theorem store_of_lt (bs : List Nat) (mem : Nat → Nat) (i j : Nat) (h : j < i) :
    store mem i bs j = mem j := by
  induction bs generalizing mem i with
  | nil => rfl
  | cons b bs ih =>
    rw [store, ih _ _ (by omega), Function.update_noteq (by omega)]

theorem store_of_ge (bs : List Nat) (mem : Nat → Nat) (i j : Nat) (h : i + bs.length ≤ j) :
    store mem i bs j = mem j := by
  induction bs generalizing mem i with
  | nil => rfl
  | cons b bs ih =>
    rw [List.length_cons] at h
    rw [store, ih _ _ (by omega), Function.update_noteq (by omega)]

theorem store_getElem? (bs : List Nat) (mem : Nat → Nat) (i k : Nat) (h : k < bs.length) :
    bs[k]? = some (store mem i bs (i + k)) := by
  induction bs generalizing mem i k with
  | nil => simp at h
  | cons b bs ih =>
    cases k with
    | zero =>
      rw [store, store_of_lt _ _ _ _ (by omega), Nat.add_zero, Function.update_same]
      exact List.getElem?_cons_zero
    | succ k =>
      rw [List.length_cons] at h
      rw [List.getElem?_cons_succ, ih _ (i + 1) k (by omega), store]
      exact congrArg some (congrArg _ (by omega))

/-- With an empty receive buffer, `getByte` takes the next byte of the line: the receive
handler pushes it and the caller pops it. The buffer is empty again afterwards. -/
theorem getByte_idle (u : UART) (b : Nat) (line : List Nat) (h : u.RxIdle) :
    ∃ v : UART, u.getByte (b :: line) = some (b, v, line) ∧ v.RxIdle := by
  obtain ⟨h1, h2, h3⟩ := h
  have e1 : u.m_rxBuffer.m_dataindex % 65536 % u.m_rxBuffer.m_size
      = u.m_rxBuffer.m_dataindex := by
    rw [Nat.mod_eq_of_lt (show u.m_rxBuffer.m_dataindex < 65536 by omega),
      Nat.mod_eq_of_lt h2]
  have e2 : 0 < u.m_rxBuffer.m_size := by omega
  rw [getByte]
  simp only [CBuffer.size, h1, ne_eq, not_true_eq_false, if_false]
  rw [getByte.eq_def]
  simp only [receiveService, CBuffer.push_back, h1, e2, if_true, Nat.add_zero, e1,
    CBuffer.size, CBuffer.pop_front, Nat.zero_add, Nat.reduceMod, ne_eq, one_ne_zero,
    not_false_eq_true, Function.update_same]
  refine ⟨_, rfl, ?_⟩
  simp only [RxIdle, Nat.reduceAdd, Nat.reduceMod, true_and]
  refine ⟨?_, h3⟩
  split <;> omega

theorem getBytesLoop_idle (bs : List Nat) (u : UART) (line : List Nat) (mem : Nat → Nat)
    (i n : Nat) (hn : bs.length = n) (h : u.RxIdle) :
    ∃ v : UART, u.getBytesLoop (bs ++ line) mem i n = some (store mem i bs, v, line)
      ∧ v.RxIdle := by
  subst hn
  induction bs generalizing u mem i with
  | nil => exact ⟨u, rfl, h⟩
  | cons b bs ih =>
    obtain ⟨v, hv, hidle⟩ := getByte_idle u b (bs ++ line) h
    obtain ⟨w, hw, hidle2⟩ := ih v (Function.update mem i b) (i + 1) hidle
    refine ⟨w, ?_, hidle2⟩
    rw [List.cons_append, List.length_cons, getBytesLoop, hv]
    exact hw

/-- The memory after the bytes `f 0, ..., f (n - 1)` have been stored from address `a` on. -/
theorem store_map_range (mem : Nat → Nat) (a n : Nat) (f : Nat → Nat) (j : Nat) :
    store mem a ((List.range n).map f) j = if a ≤ j ∧ j < a + n then f (j - a) else mem j := by
  by_cases h1 : j < a
  · rw [store_of_lt _ _ _ _ h1, if_neg (by omega)]
  · by_cases h2 : j < a + n
    · rw [if_pos ⟨by omega, h2⟩]
      have hk : j - a < ((List.range n).map f).length := by
        rw [List.length_map, List.length_range]; omega
      have h := store_getElem? ((List.range n).map f) mem a (j - a) hk
      rw [List.getElem?_map, List.getElem?_range (by omega), Option.map_some'] at h
      have e : a + (j - a) = j := by omega
      rw [e] at h
      exact (Option.some.inj h).symm
    · rw [if_neg (by omega)]
      exact store_of_ge _ _ _ _ (by rw [List.length_map, List.length_range]; omega)

end UART

/-! ## Facts about `Message` -/

namespace Message

open UART

/-- The checksum depends on the covered bytes only. -/
theorem compute_checksum_congr (f g : Nat → Nat) (n : Nat) (h : ∀ i, i < n → f i = g i) :
    compute_checksum f n = compute_checksum g n := by
  induction n with
  | zero => rfl
  | succ n ih =>
    have ih2 := ih (fun i hi => h i (by omega))
    simp only [compute_checksum] at ih2 ⊢
    rw [List.range_succ, List.foldl_append, List.foldl_append, ih2, List.foldl_cons,
      List.foldl_cons, List.foldl_nil, List.foldl_nil, h n (by omega)]

/-- The message bytes of a frame are the four header bytes followed by the payload bytes. -/
theorem map_range_add_four (msg : Nat → Nat) (L : Nat) :
    (List.range (L + 4)).map msg
      = (List.range 4).map msg ++ (List.range L).map (fun i => msg (4 + i)) := by
  rw [Nat.add_comm L 4, List.range_add, List.map_append, List.map_map]
  rfl

/-- `receive` on a port with an empty receive buffer and a line that starts with the frame of
`msg[0..L+4)`, where the length field of `msg` holds `L` and `L + 4 ≤ maxlen`: it returns
`L + 4`, has stored `msg[0..L+4)` at the start of the caller's memory and nothing beyond, and
has taken the `L + 8` bytes of the frame from the line. -/
theorem receive_frame (r : UART) (sig msg buf : Nat → Nat) (L maxlen : Nat) (rest : List Nat)
    (hr : r.RxIdle) (hL : msg 2 + 256 * msg 3 = L) (hmax : L + 4 ≤ maxlen)
    (hmaxlen : maxlen < 65536) :
    ∃ (v : UART) (out : Nat → Nat),
      receive r (frame sig msg (L + 4) ++ rest) sig buf maxlen = some (L + 4, out, v, rest)
        ∧ (∀ i, i < L + 4 → out i = msg i)
        ∧ (∀ i, L + 4 ≤ i → out i = buf i)
        ∧ v.RxIdle := by
  have hline : frame sig msg (L + 4) ++ rest
      = sig 0 :: sig 1 :: ((List.range 4).map msg
          ++ ((List.range L).map (fun i => msg (4 + i))
            ++ ([(compute_checksum msg (L + 4)).1, (compute_checksum msg (L + 4)).2]
              ++ rest))) := by
    unfold frame
    rw [map_range_add_four]
    simp only [List.cons_append, List.append_assoc]
  obtain ⟨v1, e1, i1⟩ := getByte_idle r (sig 0)
    (sig 1 :: ((List.range 4).map msg
      ++ ((List.range L).map (fun i => msg (4 + i))
        ++ ([(compute_checksum msg (L + 4)).1, (compute_checksum msg (L + 4)).2] ++ rest)))) hr
  obtain ⟨v2, e2, i2⟩ := getByte_idle v1 (sig 1)
    ((List.range 4).map msg
      ++ ((List.range L).map (fun i => msg (4 + i))
        ++ ([(compute_checksum msg (L + 4)).1, (compute_checksum msg (L + 4)).2] ++ rest))) i1
  obtain ⟨v3, e3, i3⟩ := getBytesLoop_idle ((List.range 4).map msg) v2
    ((List.range L).map (fun i => msg (4 + i))
        ++ ([(compute_checksum msg (L + 4)).1, (compute_checksum msg (L + 4)).2] ++ rest))
    buf 0 4 rfl i2
  obtain ⟨v4, e4, i4⟩ := getBytesLoop_idle ((List.range L).map (fun i => msg (4 + i))) v3
    ([(compute_checksum msg (L + 4)).1, (compute_checksum msg (L + 4)).2] ++ rest)
    (store buf 0 ((List.range 4).map msg)) 4 L
    (by rw [List.length_map, List.length_range]) i3
  obtain ⟨v5, e5, i5⟩ := getBytesLoop_idle
    [(compute_checksum msg (L + 4)).1, (compute_checksum msg (L + 4)).2] v4 rest
    (fun _ => 0) 0 2 rfl i4
  have hout : ∀ i, store (store buf 0 ((List.range 4).map msg)) 4
      ((List.range L).map (fun i => msg (4 + i))) i = if i < L + 4 then msg i else buf i := by
    intro i
    rw [store_map_range, store_map_range]
    by_cases h1 : i < 4
    · rw [if_neg (by omega), if_pos ⟨by omega, by omega⟩, if_pos (by omega)]
      rfl
    · by_cases h2 : i < L + 4
      · rw [if_pos ⟨by omega, by omega⟩, if_pos h2]
        exact congrArg msg (by omega)
      · rw [if_neg (by omega), if_neg (by omega), if_neg h2]
  have hlen : store buf 0 ((List.range 4).map msg) 2
      + 256 * store buf 0 ((List.range 4).map msg) 3 = L := by
    rw [store_map_range, store_map_range, if_pos ⟨by omega, by omega⟩,
      if_pos ⟨by omega, by omega⟩]
    exact hL
  have hmod : (L + 4) % 65536 = L + 4 := by omega
  have hcs : compute_checksum (store (store buf 0 ((List.range 4).map msg)) 4
      ((List.range L).map (fun i => msg (4 + i)))) (L + 4) = compute_checksum msg (L + 4) :=
    compute_checksum_congr _ _ _ (fun i hi => by rw [hout, if_pos hi])
  have hck0 : store (fun _ => 0) 0
      [(compute_checksum msg (L + 4)).1, (compute_checksum msg (L + 4)).2] 0
      = (compute_checksum msg (L + 4)).1 := by
    simp [store, Function.update_apply]
  have hck1 : store (fun _ => 0) 0
      [(compute_checksum msg (L + 4)).1, (compute_checksum msg (L + 4)).2] 1
      = (compute_checksum msg (L + 4)).2 := by
    simp [store, Function.update_apply]
  refine ⟨v5, store (store buf 0 ((List.range 4).map msg)) 4
      ((List.range L).map (fun i => msg (4 + i))), ?_, fun i hi => by rw [hout, if_pos hi],
    fun i hi => by rw [hout, if_neg (by omega)], i5⟩
  rw [hline, receive, e1]
  simp only []
  rw [findStart, e2]
  simp only [and_self, if_true, getBytes, e3, hlen, hmod]
  rw [if_neg (by omega)]
  simp only [e4, e5, hcs, hck0, hck1, and_self, if_true]

/-- `send` on a port whose transmit buffer is empty and has room for the frame less its first
byte, followed by transmit-handler runs until the buffer is empty: the bytes written to the
data register are the frame, in order. -/
theorem send_wire (u : UART) (sig msg : Nat → Nat) (len : Nat) (h : u.m_txBuffer.Inv)
    (h0 : u.m_txBuffer.m_datalength = 0) (hroom : len + 3 ≤ u.m_txBuffer.m_size)
    (hw : u.m_txBuffer.m_dataindex + len + 4 ≤ 65536) :
    (transmitService^[len + 3] (send u sig msg len)).UDR = u.UDR ++ frame sig msg len
      ∧ (transmitService^[len + 3] (send u sig msg len)).m_txBuffer.m_datalength = 0 := by
  obtain ⟨h1, h2, h3⟩ := h
  obtain ⟨a1, a2, a3, a4, a5⟩ := sendBytes_idle u sig 2 ⟨h1, h2, h3⟩ h0 (by omega) (by omega)
    (by omega)
  have hidx : (u.sendBytes sig 2).2.m_txBuffer.m_dataindex ≤ u.m_txBuffer.m_dataindex + 1 := by
    rw [a3]; exact Nat.mod_le _ _
  have hidx2 : (u.sendBytes sig 2).2.m_txBuffer.m_dataindex < u.m_txBuffer.m_size := by
    rw [a3]; exact Nat.mod_lt _ (by omega)
  have hinv1 : (u.sendBytes sig 2).2.m_txBuffer.Inv :=
    ⟨by rw [a4]; exact h1, by rw [a4]; omega, by rw [a4]; exact hidx2⟩
  obtain ⟨b1, b2, b3, b4, b5⟩ := sendBytes_busy (u.sendBytes sig 2).2 msg len hinv1 (by omega)
    (by rw [a4]; omega) (by omega)
  have hinv2 : ((u.sendBytes sig 2).2.sendBytes msg len).2.m_txBuffer.Inv :=
    ⟨by rw [b4, a4]; exact h1, by rw [b4, b5, a4]; omega, by rw [b3, b4, a4]; exact hidx2⟩
  obtain ⟨c1, c2, _, c4, c5⟩ := sendBytes_busy ((u.sendBytes sig 2).2.sendBytes msg len).2
    (fun i => if i = 0 then (compute_checksum msg len).1 else (compute_checksum msg len).2) 2
    hinv2 (by rw [b5]; omega) (by rw [b4, b5, a4]; omega) (by rw [b3, b5]; omega)
  have hinv3 : (send u sig msg len).m_txBuffer.Inv := by
    simp only [send]
    exact ⟨by rw [c4, b4, a4]; exact h1, by rw [c4, c5, b4, b5, a4]; omega,
      by rw [c4, b4, a4]; omega⟩
  have hlen3 : (send u sig msg len).m_txBuffer.m_datalength = len + 3 := by
    simp only [send]
    rw [c5, b5]; omega
  have hU : (send u sig msg len).UDR = u.UDR ++ [sig 0] := by
    simp only [send]
    rw [c1, b1, a1]
  have hT : (send u sig msg len).m_txBuffer.toList
      = sig 1 :: ((List.range len).map msg
          ++ [(compute_checksum msg len).1, (compute_checksum msg len).2]) := by
    simp only [send]
    rw [c2, b2, a2]
    rfl
  obtain ⟨d1, _, d3⟩ := transmitService_iterate (len + 3) (send u sig msg len) hinv3
    (by rw [hlen3])
  refine ⟨?_, by omega⟩
  rw [d1, hU, List.take_of_length_le, hT, frame, List.append_assoc, List.singleton_append]
  simp only [CBuffer.toList, List.length_map, List.length_range, hlen3, le_refl]

/-! ### The claim on the round trip -/

/-- C1. Round trip of framing. Let `msg` be a message of length `L + 4` whose bytes 2 and 3
hold `L` little-endian, and `L + 4 ≤ maxlen`. `receive(sig, buf, maxlen)` on a port `r` with an
empty receive buffer, reading the frame of `msg` followed by any bytes `rest`, returns `L + 4`,
leaves `buf[0..L+4)` equal to `msg` (and the memory beyond untouched), and has taken exactly the
`L + 8` bytes of the frame from the line: `rest` is what remains. That frame is the byte stream
of `send`: on a port `t` whose transmit buffer is empty and has room (its head-offset sums stay
within 16 bits, as they do after `setup`), `send(sig, msg, L + 4)` and the transmit-handler
runs that empty the buffer write exactly the bytes of the frame to the data register. -/
theorem roundtrip (t r : UART) (sig msg buf : Nat → Nat) (L maxlen : Nat) (rest : List Nat)
    (hr : r.RxIdle) (hL : msg 2 + 256 * msg 3 = L) (hmax : L + 4 ≤ maxlen)
    (hmaxlen : maxlen < 65536) :
    (t.m_txBuffer.Inv → t.m_txBuffer.m_datalength = 0 → L + 7 ≤ t.m_txBuffer.m_size →
        t.m_txBuffer.m_dataindex + L + 8 ≤ 65536 →
        (transmitService^[L + 7] (send t sig msg (L + 4))).UDR
          = t.UDR ++ frame sig msg (L + 4))
      ∧ (frame sig msg (L + 4)).length = L + 8
      ∧ ∃ (v : UART) (out : Nat → Nat),
          receive r (frame sig msg (L + 4) ++ rest) sig buf maxlen = some (L + 4, out, v, rest)
            ∧ (∀ i, i < L + 4 → out i = msg i)
            ∧ (∀ i, L + 4 ≤ i → out i = buf i) := by
  obtain ⟨v, out, e, o1, o2, _⟩ := receive_frame r sig msg buf L maxlen rest hr hL hmax hmaxlen
  refine ⟨?_, ?_, v, out, e, o1, o2⟩
  · intro ht ht0 hroom hw
    exact (send_wire t sig msg (L + 4) ht ht0 (by omega) (by omega)).1
  · simp only [frame, List.length_cons, List.length_append, List.length_map, List.length_range,
      List.length_nil]

theorem roundtrip_witness :
    frame exampleSig exampleMsg 7
        = [0xAA, 0x55, 0x01, 0x02, 0x03, 0x00, 0x10, 0x20, 0x30, 0x66, 0xC2]
      ∧ (transmitService^[3 + 7]
            (send (UART.initial.setup 128 128) exampleSig exampleMsg (3 + 4))).UDR
          = (UART.initial.setup 128 128).UDR ++ frame exampleSig exampleMsg (3 + 4)
      ∧ (frame exampleSig exampleMsg (3 + 4)).length = 3 + 8
      ∧ ∃ (v : UART) (out : Nat → Nat),
          receive (UART.initial.setup 128 128) (frame exampleSig exampleMsg (3 + 4) ++ [5, 6])
              exampleSig (fun _ => 0) 11
            = some (3 + 4, out, v, [5, 6])
            ∧ (∀ i, i < 3 + 4 → out i = exampleMsg i)
            ∧ (∀ i, 3 + 4 ≤ i → out i = (fun _ => 0) i) :=
  ⟨by decide,
    (roundtrip (UART.initial.setup 128 128) (UART.initial.setup 128 128) exampleSig exampleMsg
      (fun _ => 0) 3 11 [5, 6] (by decide) (by decide) (by decide) (by decide)).1
        (by decide) rfl (by decide) (by decide),
    (roundtrip (UART.initial.setup 128 128) (UART.initial.setup 128 128) exampleSig exampleMsg
      (fun _ => 0) 3 11 [5, 6] (by decide) (by decide) (by decide) (by decide)).2⟩

end Message

namespace UART

/-! ### The claims on the overflow flag of `sendBytes` -/

/-- C9, the code at a failing input. On a port set up with buffers of 128 bytes, starting from
the initial state, `sendBytes` of the single byte `65` returns `false`, although the push of
that byte is accepted by the transmit buffer and the byte is written to the data register. -/
theorem sendBytes_false_though_accepted :
    ((UART.initial.setup 128 128).sendBytes (fun _ => 65) 1).1 = false
      ∧ ((UART.initial.setup 128 128).m_txBuffer.pushAll [65]).1 = [true]
      ∧ ((UART.initial.setup 128 128).sendBytes (fun _ => 65) 1).2.UDR = [65] := by
  decide

/-- C10, the code at a failing input. On a port set up with a transmit buffer of 2 bytes,
`sendBytes` of the 4 bytes `1, 2, 3, 4` has its last two pushes rejected by the full buffer,
and `transmitOverflow()` is `false` afterwards. -/
theorem transmitOverflow_false_after_overflow :
    ((UART.initial.setup 128 2).m_txBuffer.pushAll [1, 2, 3, 4]).1 = [true, true, false, false]
      ∧ ((UART.initial.setup 128 2).sendBytes (fun i => i + 1) 4).2.transmitOverflow = false := by
  decide

end UART

/-! ## The interrupt handlers, the kick-start and `setup` -/

namespace UART

/-- C17. One run of the receive handler with hardware byte `b`, on a receive buffer in a state
of the data model. When the buffer is full it is left unchanged; when it has room `size()`
grows by one and `b` is appended at the tail (the logical contents gain `b` at the end,
provided the head-offset sum stays within 16 bits). Afterwards `receiveOverflow()` is true if
and only if the buffer was full on this run. No other operation writes the flag: `setup`,
`sendBytes`, the transmit handler, the two flush calls and a `getByte` that finds a byte in the
buffer leave it as it is. -/
theorem receiveService_spec (u : UART) (b : Nat) (hs : u.m_rxBuffer.m_size < 65536)
    (hl : u.m_rxBuffer.m_datalength ≤ u.m_rxBuffer.m_size) :
    (u.m_rxBuffer.size = u.m_rxBuffer.m_size →
        (u.receiveService b).m_rxBuffer = u.m_rxBuffer)
      ∧ (u.m_rxBuffer.size < u.m_rxBuffer.m_size →
          (u.receiveService b).m_rxBuffer.size = u.m_rxBuffer.size + 1
            ∧ (u.receiveService b).m_rxBuffer.get u.m_rxBuffer.size = b
            ∧ (u.m_rxBuffer.m_dataindex < u.m_rxBuffer.m_size →
                u.m_rxBuffer.m_dataindex + u.m_rxBuffer.m_datalength < 65536 →
                (u.receiveService b).m_rxBuffer.toList = u.m_rxBuffer.toList ++ [b]))
      ∧ ((u.receiveService b).receiveOverflow = true ↔ u.m_rxBuffer.size = u.m_rxBuffer.m_size)
      ∧ (∀ rxBufSize txBufSize, (u.setup rxBufSize txBufSize).receiveOverflow = u.receiveOverflow)
      ∧ (∀ data n, (u.sendBytes data n).2.receiveOverflow = u.receiveOverflow)
      ∧ u.transmitService.receiveOverflow = u.receiveOverflow
      ∧ u.flushReceiveBuffer.receiveOverflow = u.receiveOverflow
      ∧ u.flushTransmitBuffer.receiveOverflow = u.receiveOverflow
      ∧ (∀ line, u.m_rxBuffer.size ≠ 0 →
          (u.getByte line).map (fun x => x.2.1.receiveOverflow) = some u.receiveOverflow) := by
  refine ⟨?_, ?_, ?_, fun _ _ => rfl, ?_, ?_, rfl, rfl, ?_⟩
  rotate_right
  · intro line hne
    rw [getByte.eq_def]
    simp only [hne, ne_eq, not_false_eq_true, if_true, Option.map_some']
    rfl
  · intro hfull
    simp only [CBuffer.size] at hfull
    simp [receiveService, CBuffer.push_back, hfull]
  · intro hroom
    simp only [CBuffer.size] at hroom
    have e1 : (u.m_rxBuffer.m_datalength + 1) % 65536 = u.m_rxBuffer.m_datalength + 1 := by
      omega
    refine ⟨?_, ?_, ?_⟩
    · simp [receiveService, CBuffer.push_back, hroom, CBuffer.size, e1]
    · simp [receiveService, CBuffer.push_back, hroom, CBuffer.size, CBuffer.get]
    · intro hidx hw
      exact (CBuffer.push_back_toList u.m_rxBuffer b ⟨hs, hl, hidx⟩ hroom hw).2.1
  · simp only [receiveService, receiveOverflow, CBuffer.push_back, CBuffer.size]
    split
    · simp; omega
    · simp; omega
  · intro data n
    obtain ⟨_, _, _, _, f5⟩ := foldl_pushTx ((List.range n).map data) u
    simp only [sendBytes, sendBytes_loop, receiveOverflow]
    split <;> exact f5
  · simp only [transmitService, receiveOverflow]
    split <;> rfl

theorem receiveService_spec_witness :
    ((UART.initial.setup 1 1).receiveService 7).m_rxBuffer.size
        = (UART.initial.setup 1 1).m_rxBuffer.size + 1
      ∧ ((UART.initial.setup 1 1).receiveService 7).m_rxBuffer.toList
        = (UART.initial.setup 1 1).m_rxBuffer.toList ++ [7]
      ∧ ((UART.initial.setup 1 1).receiveService 7).receiveOverflow = false
      ∧ (((UART.initial.setup 1 1).receiveService 7).receiveService 8).m_rxBuffer
        = ((UART.initial.setup 1 1).receiveService 7).m_rxBuffer
      ∧ ((((UART.initial.setup 1 1).receiveService 7).receiveService 8).receiveOverflow = true
          ↔ ((UART.initial.setup 1 1).receiveService 7).m_rxBuffer.size
            = ((UART.initial.setup 1 1).receiveService 7).m_rxBuffer.m_size) :=
  ⟨((receiveService_spec (UART.initial.setup 1 1) 7 (by decide) (by decide)).2.1
      (by decide)).1,
    ((receiveService_spec (UART.initial.setup 1 1) 7 (by decide) (by decide)).2.1
      (by decide)).2.2 (by decide) (by decide),
    by decide,
    (receiveService_spec ((UART.initial.setup 1 1).receiveService 7) 8 (by decide)
      (by decide)).1 (by decide),
    (receiveService_spec ((UART.initial.setup 1 1).receiveService 7) 8 (by decide)
      (by decide)).2.2.1⟩

/-- C18. One run of the transmit handler. On an empty transmit buffer it changes nothing. On a
non-empty transmit buffer (in a state of the data model) it removes the byte at the head of the
buffer, the oldest one of the logical contents, leaves the other bytes in their order, and
appends that byte to the bytes written to the data register. -/
theorem transmitService_spec (u : UART) :
    (u.m_txBuffer.size = 0 → u.transmitService = u)
      ∧ (u.m_txBuffer.size ≠ 0 → u.m_txBuffer.Inv →
          u.transmitService.UDR = u.UDR ++ [u.m_txBuffer.get 0]
            ∧ u.m_txBuffer.toList
                = u.m_txBuffer.get 0 :: u.transmitService.m_txBuffer.toList
            ∧ u.transmitService.m_txBuffer.size + 1 = u.m_txBuffer.size
            ∧ u.transmitService.m_rxBuffer = u.m_rxBuffer) := by
  constructor
  · intro h0
    simp [transmitService, h0]
  · intro hne hinv
    have hl : u.m_txBuffer.m_datalength ≠ 0 := hne
    obtain ⟨q1, _, _, q4, _⟩ := CBuffer.pop_front_toList u.m_txBuffer hinv hl
    have hstep : u.transmitService
        = { u with m_txBuffer := u.m_txBuffer.pop_front.2,
                   UDR := u.UDR ++ [u.m_txBuffer.pop_front.1] } := by
      simp only [transmitService, hne, ne_eq, not_false_eq_true, if_true]
    have hhead : u.m_txBuffer.pop_front.1 = u.m_txBuffer.get 0 := by
      obtain ⟨h1, h2, h3⟩ := hinv
      have e : u.m_txBuffer.m_dataindex % 65536 % u.m_txBuffer.m_size
          = u.m_txBuffer.m_dataindex := by
        rw [Nat.mod_eq_of_lt (show u.m_txBuffer.m_dataindex < 65536 by omega),
          Nat.mod_eq_of_lt h3]
      simp only [CBuffer.pop_front, hl, ne_eq, not_false_eq_true, if_true, CBuffer.get,
        Nat.add_zero, e]
    rw [hstep, ← hhead]
    exact ⟨rfl, q1, q4, rfl⟩

theorem transmitService_spec_witness :
    (UART.initial.setup 4 4).transmitService = UART.initial.setup 4 4
      ∧ ((UART.initial.setup 4 4).pushTx 5).transmitService.UDR
          = ((UART.initial.setup 4 4).pushTx 5).UDR
            ++ [((UART.initial.setup 4 4).pushTx 5).m_txBuffer.get 0]
      ∧ ((UART.initial.setup 4 4).pushTx 5).m_txBuffer.toList
          = ((UART.initial.setup 4 4).pushTx 5).m_txBuffer.get 0
            :: ((UART.initial.setup 4 4).pushTx 5).transmitService.m_txBuffer.toList
      ∧ ((UART.initial.setup 4 4).pushTx 5).transmitService.m_txBuffer.size + 1
          = ((UART.initial.setup 4 4).pushTx 5).m_txBuffer.size
      ∧ ((UART.initial.setup 4 4).pushTx 5).transmitService.m_rxBuffer
          = ((UART.initial.setup 4 4).pushTx 5).m_rxBuffer :=
  ⟨(transmitService_spec (UART.initial.setup 4 4)).1 rfl,
    (transmitService_spec ((UART.initial.setup 4 4).pushTx 5)).2 (by decide) (by decide)⟩

/-- C19, the code at two failing inputs. First: on a port set up with a transmit buffer of 2
bytes, `sendBytes` of 3 bytes starts with an empty buffer and writes nothing to the data
register (two bytes stay queued). Second: on a port set up with a transmit buffer of 4 bytes,
after `sendBytes` of the bytes `1, 2, 3` the buffer holds two bytes; `sendBytes` of the 4 bytes
`4, 5, 6, 7` then writes to the data register, and the byte written is `2`, not `data[0] = 4`. -/
theorem kickstart_misfires :
    (UART.initial.setup 128 2).m_txBuffer.size = 0
      ∧ ((UART.initial.setup 128 2).sendBytes (fun i => i + 1) 3).2.UDR = []
      ∧ ((UART.initial.setup 128 2).sendBytes (fun i => i + 1) 3).2.m_txBuffer.size = 2
      ∧ ((UART.initial.setup 128 4).sendBytes (fun i => i + 1) 3).2.m_txBuffer.size = 2
      ∧ ((UART.initial.setup 128 4).sendBytes (fun i => i + 1) 3).2.UDR = [1]
      ∧ (((UART.initial.setup 128 4).sendBytes (fun i => i + 1) 3).2.sendBytes
          (fun i => i + 4) 4).2.UDR = [1, 2] := by
  decide

/-- C20, a counterexample. On a port set up with a receive buffer of 1 byte, two runs of the
receive handler set the receive-overflow flag; after a new `setup` the flag is still set. -/
theorem setup_keeps_receiveOverflow :
    (((UART.initial.setup 1 1).receiveService 1).receiveService 2).receiveOverflow = true
      ∧ ((((UART.initial.setup 1 1).receiveService 1).receiveService 2).setup 128
          128).receiveOverflow = true := by
  decide

/-- C20, amended. After `setup(baudrate, rxBufSize, txBufSize, ...)` both ring buffers are empty
with the capacities `rxBufSize` and `txBufSize`, and `receiveOverflow()` and
`transmitOverflow()` report what they reported before the call. -/
theorem setup_spec (u : UART) (rxBufSize txBufSize : Nat) :
    (u.setup rxBufSize txBufSize).m_rxBuffer.size = 0
      ∧ (u.setup rxBufSize txBufSize).m_txBuffer.size = 0
      ∧ (u.setup rxBufSize txBufSize).m_rxBuffer.m_size = rxBufSize
      ∧ (u.setup rxBufSize txBufSize).m_txBuffer.m_size = txBufSize
      ∧ (u.setup rxBufSize txBufSize).m_rxBuffer.toList = []
      ∧ (u.setup rxBufSize txBufSize).m_txBuffer.toList = []
      ∧ (u.setup rxBufSize txBufSize).receiveOverflow = u.receiveOverflow
      ∧ (u.setup rxBufSize txBufSize).transmitOverflow = u.transmitOverflow :=
  ⟨rfl, rfl, rfl, rfl, rfl, rfl, rfl, rfl⟩

end UART

namespace Message

/-- C16, the code at a failing input. On a port set up with a transmit buffer of 128 bytes, all
of them free, `canSend(65532)` returns true: `msglen + 4` is computed as `0`. -/
theorem canSend_true_without_room :
    canSend (UART.initial.setup 128 128) 65532 = true
      ∧ (UART.initial.setup 128 128).m_txBuffer.m_size
          - (UART.initial.setup 128 128).m_txBuffer.size = 128 := by
  decide

end Message

/-! ## Further facts about `Message` -/

namespace Message

open UART

/-- `receive` is the search for the message start followed by `afterStart`. -/
theorem receive_eq (u : UART) (line : List Nat) (sig msg : Nat → Nat) (maxlen : Nat) :
    receive u line sig msg maxlen
      = match u.getByte line with
        | none => none
        | some (c2, u1, line1) =>
          match findStart sig (u1.m_rxBuffer.size + line1.length + 1) c2 u1 line1 with
          | none => none
          | some (u2, line2) => afterStart u2 line2 msg maxlen := by
  rfl

/-! ### The wire format of `send` -/

theorem zip_filterMap_true (xs : List Nat) :
    ((xs.zip (List.replicate xs.length true)).filterMap
      (fun p => if p.2 then some p.1 else none)) = xs := by
  induction xs with
  | nil => rfl
  | cons x xs ih =>
    rw [List.length_cons, List.replicate_succ, List.zip_cons_cons, List.filterMap_cons]
    simp only [if_true]
    rw [ih]

/-- A call of `sendBytes` for which the transmit buffer has room: every byte is accepted, the
capacity stays and the count grows by at most `n`. -/
theorem sendBytes_room (u : UART) (data : Nat → Nat) (n : Nat)
    (hs : u.m_txBuffer.m_size < 65536)
    (hl : u.m_txBuffer.m_datalength + n ≤ u.m_txBuffer.m_size) :
    u.accepted data n = (List.range n).map data
      ∧ (u.sendBytes data n).2.m_txBuffer.m_size = u.m_txBuffer.m_size
      ∧ (u.sendBytes data n).2.m_txBuffer.m_datalength ≤ u.m_txBuffer.m_datalength + n := by
  have hlen : ((List.range n).map data).length = n := by
    rw [List.length_map, List.length_range]
  obtain ⟨p1, p2, p3⟩ := CBuffer.pushAll_flags ((List.range n).map data) u.m_txBuffer hs
    (by omega)
  obtain ⟨f1, _⟩ := foldl_pushTx ((List.range n).map data) u
  rw [hlen] at p1 p2
  have e1 : min (u.m_txBuffer.m_size - u.m_txBuffer.m_datalength) n = n := by omega
  have e2 : n - (u.m_txBuffer.m_size - u.m_txBuffer.m_datalength) = 0 := by omega
  have e3 : min u.m_txBuffer.m_size (u.m_txBuffer.m_datalength + n)
      = u.m_txBuffer.m_datalength + n := by omega
  rw [e1, e2, List.replicate_zero, List.append_nil] at p1
  rw [e3] at p2
  refine ⟨?_, ?_, ?_⟩
  · rw [accepted, p1]
    have h := zip_filterMap_true ((List.range n).map data)
    rw [hlen] at h
    exact h
  · simp only [sendBytes, sendBytes_loop]
    split
    · show (CBuffer.pop_front _).2.m_size = _
      rw [f1]
      simp only [CBuffer.pop_front]
      split <;> exact p3
    · rw [f1]; exact p3
  · simp only [sendBytes, sendBytes_loop]
    split
    · show (CBuffer.pop_front _).2.m_datalength ≤ _
      rw [f1]
      simp only [CBuffer.pop_front]
      split
      · simp only []; omega
      · simp only []; omega
    · rw [f1]; omega

/-- The bytes that `send` hands to a transmit buffer with room for `len + 4` bytes are the bytes
of the frame. -/
theorem handed_eq_frame (u : UART) (sig msg : Nat → Nat) (len : Nat)
    (hs : u.m_txBuffer.m_size < 65536)
    (hroom : u.m_txBuffer.m_datalength + len + 4 ≤ u.m_txBuffer.m_size) :
    handed u sig msg len = frame sig msg len := by
  obtain ⟨a1, a2, a3⟩ := sendBytes_room u sig 2 hs (by omega)
  obtain ⟨b1, b2, b3⟩ := sendBytes_room (u.sendBytes sig 2).2 msg len (by rw [a2]; exact hs)
    (by rw [a2]; omega)
  obtain ⟨c1, _, _⟩ := sendBytes_room ((u.sendBytes sig 2).2.sendBytes msg len).2
    (fun i => if i = 0 then (compute_checksum msg len).1 else (compute_checksum msg len).2) 2
    (by rw [b2, a2]; exact hs) (by rw [b2, a2]; omega)
  simp only [handed]
  rw [a1, b1, c1]
  rfl

/-- `send` on a transmit buffer with room for the frame, whose head-offset sums stay within 16
bits: the bytes written to the data register followed by the bytes queued grow by exactly the
frame. -/
theorem send_queue (u : UART) (sig msg : Nat → Nat) (len : Nat) (h : u.m_txBuffer.Inv)
    (hroom : u.m_txBuffer.m_datalength + len + 4 ≤ u.m_txBuffer.m_size)
    (hw : u.m_txBuffer.m_dataindex + u.m_txBuffer.m_datalength + len + 4 ≤ 65536) :
    (send u sig msg len).UDR ++ (send u sig msg len).m_txBuffer.toList
      = u.UDR ++ u.m_txBuffer.toList ++ frame sig msg len := by
  obtain ⟨h1, h2, h3⟩ := h
  have hck : (List.range 2).map
      (fun i => if i = 0 then (compute_checksum msg len).1 else (compute_checksum msg len).2)
      = [(compute_checksum msg len).1, (compute_checksum msg len).2] := rfl
  have hsig : (List.range 2).map sig = [sig 0, sig 1] := rfl
  by_cases h0 : u.m_txBuffer.m_datalength = 0
  · obtain ⟨a1, a2, a3, a4, a5⟩ := sendBytes_idle u sig 2 ⟨h1, h2, h3⟩ h0 (by omega) (by omega)
      (by omega)
    have hidx : (u.sendBytes sig 2).2.m_txBuffer.m_dataindex ≤ u.m_txBuffer.m_dataindex + 1 := by
      rw [a3]; exact Nat.mod_le _ _
    have hidx2 : (u.sendBytes sig 2).2.m_txBuffer.m_dataindex < u.m_txBuffer.m_size := by
      rw [a3]; exact Nat.mod_lt _ (by omega)
    have hinv1 : (u.sendBytes sig 2).2.m_txBuffer.Inv :=
      ⟨by rw [a4]; exact h1, by rw [a4]; omega, by rw [a4]; exact hidx2⟩
    obtain ⟨b1, b2, b3, b4, b5⟩ := sendBytes_busy (u.sendBytes sig 2).2 msg len hinv1
      (by omega) (by rw [a4]; omega) (by omega)
    have hinv2 : ((u.sendBytes sig 2).2.sendBytes msg len).2.m_txBuffer.Inv :=
      ⟨by rw [b4, a4]; exact h1, by rw [b4, b5, a4]; omega, by rw [b3, b4, a4]; exact hidx2⟩
    obtain ⟨c1, c2, _, _, _⟩ := sendBytes_busy ((u.sendBytes sig 2).2.sendBytes msg len).2
      (fun i => if i = 0 then (compute_checksum msg len).1 else (compute_checksum msg len).2) 2
      hinv2 (by rw [b5]; omega) (by rw [b4, b5, a4]; omega) (by rw [b3, b5]; omega)
    have hnil : u.m_txBuffer.toList = [] := by
      simp only [CBuffer.toList, h0, List.range_zero, List.map_nil]
    simp only [send]
    rw [c1, c2, b1, b2, a1, a2, hnil, hck, hsig, frame]
    simp only [List.tail_cons, List.append_nil, List.append_assoc, List.singleton_append,
      List.cons_append, List.nil_append]
  · obtain ⟨a1, a2, a3, a4, a5⟩ := sendBytes_busy u sig 2 ⟨h1, h2, h3⟩ h0 (by omega) (by omega)
    have hinv1 : (u.sendBytes sig 2).2.m_txBuffer.Inv :=
      ⟨by rw [a4]; exact h1, by rw [a4, a5]; omega, by rw [a3, a4]; exact h3⟩
    obtain ⟨b1, b2, b3, b4, b5⟩ := sendBytes_busy (u.sendBytes sig 2).2 msg len hinv1
      (by omega) (by rw [a4, a5]; omega) (by rw [a3, a5]; omega)
    have hinv2 : ((u.sendBytes sig 2).2.sendBytes msg len).2.m_txBuffer.Inv :=
      ⟨by rw [b4, a4]; exact h1, by rw [b4, b5, a4, a5]; omega, by rw [b3, b4, a3, a4]; exact h3⟩
    obtain ⟨c1, c2, _, _, _⟩ := sendBytes_busy ((u.sendBytes sig 2).2.sendBytes msg len).2
      (fun i => if i = 0 then (compute_checksum msg len).1 else (compute_checksum msg len).2) 2
      hinv2 (by rw [b5]; omega) (by rw [b4, b5, a4, a5]; omega)
      (by rw [b3, b5, a3, a5]; omega)
    simp only [send]
    rw [c1, c2, b1, b2, a1, a2, hck, hsig, frame]
    simp only [List.append_assoc, List.singleton_append, List.cons_append, List.nil_append]

/-- C13. Wire format of `send`. When the transmit buffer (in a state of the data model) has
room for the `len + 4` bytes, the bytes that `send(sig, msg, len)` hands to it, all accepted,
are in order `sig[0]`, `sig[1]`, `msg[0..len)`, `c1`, `c2`: `len + 4` bytes, with `(c1, c2)`
the checksum of `msg[0..len)` alone. They are the bytes by which the transmit path grows (the
bytes written to the data register followed by the bytes queued), provided the head-offset
sums of the buffer stay within 16 bits. -/
theorem send_wire_format (u : UART) (sig msg : Nat → Nat) (len : Nat)
    (hs : u.m_txBuffer.m_size < 65536)
    (hroom : u.m_txBuffer.m_datalength + len + 4 ≤ u.m_txBuffer.m_size) :
    handed u sig msg len
        = sig 0 :: sig 1 ::
            ((List.range len).map msg
              ++ [(compute_checksum msg len).1, (compute_checksum msg len).2])
      ∧ (handed u sig msg len).length = len + 4
      ∧ (u.m_txBuffer.m_dataindex < u.m_txBuffer.m_size →
          u.m_txBuffer.m_dataindex + u.m_txBuffer.m_datalength + len + 4 ≤ 65536 →
          (send u sig msg len).UDR ++ (send u sig msg len).m_txBuffer.toList
            = u.UDR ++ u.m_txBuffer.toList ++ handed u sig msg len) := by
  have hh := handed_eq_frame u sig msg len hs hroom
  refine ⟨hh, ?_, ?_⟩
  · rw [hh]
    simp only [frame, List.length_cons, List.length_append, List.length_map, List.length_range,
      List.length_nil]
  · intro hidx hw
    rw [hh]
    exact send_queue u sig msg len ⟨hs, by omega, hidx⟩ hroom hw

theorem send_wire_format_witness :
    handed (UART.initial.setup 128 128) exampleSig exampleMsg 7
        = [0xAA, 0x55, 0x01, 0x02, 0x03, 0x00, 0x10, 0x20, 0x30, 0x66, 0xC2]
      ∧ (handed (UART.initial.setup 128 128) exampleSig exampleMsg 7).length = 7 + 4
      ∧ (send (UART.initial.setup 128 128) exampleSig exampleMsg 7).UDR
          ++ (send (UART.initial.setup 128 128) exampleSig exampleMsg 7).m_txBuffer.toList
        = (UART.initial.setup 128 128).UDR ++ (UART.initial.setup 128 128).m_txBuffer.toList
          ++ handed (UART.initial.setup 128 128) exampleSig exampleMsg 7 :=
  ⟨(send_wire_format (UART.initial.setup 128 128) exampleSig exampleMsg 7 (by decide)
      (by decide)).1.trans (by decide),
    (send_wire_format (UART.initial.setup 128 128) exampleSig exampleMsg 7 (by decide)
      (by decide)).2.1,
    (send_wire_format (UART.initial.setup 128 128) exampleSig exampleMsg 7 (by decide)
      (by decide)).2.2 (by decide) (by decide)⟩

/-! ### `receive` after the message start -/

/-- `afterStart` on a line that holds a header whose length field is `L`, with `L + 4 ≤ maxlen`,
then `L` payload bytes and two bytes `k1`, `k2`: the result is `L + 4` when `(k1, k2)` is the
checksum of header and payload and `0` otherwise; header and payload are stored and the line is
left after `k2`. -/
theorem afterStart_checked (u : UART) (msg buf : Nat → Nat) (L maxlen k1 k2 : Nat)
    (rest : List Nat) (hr : u.RxIdle) (hL : msg 2 + 256 * msg 3 = L) (hmax : L + 4 ≤ maxlen)
    (hmaxlen : maxlen < 65536) :
    ∃ (v : UART) (out : Nat → Nat),
      afterStart u ((List.range (L + 4)).map msg ++ k1 :: k2 :: rest) buf maxlen
          = some (if k1 = (compute_checksum msg (L + 4)).1
                    ∧ k2 = (compute_checksum msg (L + 4)).2 then L + 4 else 0, out, v, rest)
        ∧ (∀ i, i < L + 4 → out i = msg i)
        ∧ (∀ i, L + 4 ≤ i → out i = buf i)
        ∧ v.RxIdle := by
  have hline : (List.range (L + 4)).map msg ++ k1 :: k2 :: rest
      = (List.range 4).map msg
          ++ ((List.range L).map (fun i => msg (4 + i)) ++ ([k1, k2] ++ rest)) := by
    rw [map_range_add_four]
    simp only [List.cons_append, List.append_assoc, List.nil_append]
  obtain ⟨v3, e3, i3⟩ := getBytesLoop_idle ((List.range 4).map msg) u
    ((List.range L).map (fun i => msg (4 + i)) ++ ([k1, k2] ++ rest)) buf 0 4 rfl hr
  obtain ⟨v4, e4, i4⟩ := getBytesLoop_idle ((List.range L).map (fun i => msg (4 + i))) v3
    ([k1, k2] ++ rest) (store buf 0 ((List.range 4).map msg)) 4 L
    (by rw [List.length_map, List.length_range]) i3
  obtain ⟨v5, e5, i5⟩ := getBytesLoop_idle [k1, k2] v4 rest (fun _ => 0) 0 2 rfl i4
  have hout : ∀ i, store (store buf 0 ((List.range 4).map msg)) 4
      ((List.range L).map (fun i => msg (4 + i))) i = if i < L + 4 then msg i else buf i := by
    intro i
    rw [store_map_range, store_map_range]
    by_cases h1 : i < 4
    · rw [if_neg (by omega), if_pos ⟨by omega, by omega⟩, if_pos (by omega)]
      rfl
    · by_cases h2 : i < L + 4
      · rw [if_pos ⟨by omega, by omega⟩, if_pos h2]
        exact congrArg msg (by omega)
      · rw [if_neg (by omega), if_neg (by omega), if_neg h2]
  have hlen : store buf 0 ((List.range 4).map msg) 2
      + 256 * store buf 0 ((List.range 4).map msg) 3 = L := by
    rw [store_map_range, store_map_range, if_pos ⟨by omega, by omega⟩,
      if_pos ⟨by omega, by omega⟩]
    exact hL
  have hmod : (L + 4) % 65536 = L + 4 := by omega
  have hcs : compute_checksum (store (store buf 0 ((List.range 4).map msg)) 4
      ((List.range L).map (fun i => msg (4 + i)))) (L + 4) = compute_checksum msg (L + 4) :=
    compute_checksum_congr _ _ _ (fun i hi => by rw [hout, if_pos hi])
  have hck0 : store (fun _ => 0) 0 [k1, k2] 0 = k1 := by
    simp [store, Function.update_apply]
  have hck1 : store (fun _ => 0) 0 [k1, k2] 1 = k2 := by
    simp [store, Function.update_apply]
  refine ⟨v5, store (store buf 0 ((List.range 4).map msg)) 4
      ((List.range L).map (fun i => msg (4 + i))), ?_, fun i hi => by rw [hout, if_pos hi],
    fun i hi => by rw [hout, if_neg (by omega)], i5⟩
  rw [hline, afterStart]
  simp only [getBytes, e3, hlen, hmod]
  rw [if_neg (by omega)]
  simp only [e4, e5, hcs, hck0, hck1]
  split <;> rfl

/-- `afterStart` on a line that holds a header for which the 16-bit sum `LENGTH + 4` exceeds
`maxlen`: the result is `0`, the header is stored and the line is left after the header. -/
theorem afterStart_oversize (u : UART) (msg buf : Nat → Nat) (maxlen : Nat) (rest : List Nat)
    (hr : u.RxIdle) (hover : (msg 2 + 256 * msg 3 + 4) % 65536 > maxlen) :
    ∃ v : UART,
      afterStart u ((List.range 4).map msg ++ rest) buf maxlen
          = some (0, store buf 0 ((List.range 4).map msg), v, rest)
        ∧ v.RxIdle := by
  obtain ⟨v3, e3, i3⟩ := getBytesLoop_idle ((List.range 4).map msg) u rest buf 0 4 rfl hr
  have hlen : store buf 0 ((List.range 4).map msg) 2
      + 256 * store buf 0 ((List.range 4).map msg) 3 = msg 2 + 256 * msg 3 := by
    rw [store_map_range, store_map_range, if_pos ⟨by omega, by omega⟩,
      if_pos ⟨by omega, by omega⟩]
  refine ⟨v3, ?_, i3⟩
  rw [afterStart]
  simp only [getBytes, e3, hlen]
  rw [if_pos hover]

/-! ### The search for the message start -/

/-- The search loop, entered with previous byte `c` on a line that holds garbage `g` and then
the signature: when no two adjacent bytes of `c`, `g`, `sig[0]` are the signature, the loop
discards `g`, takes the two signature bytes and leaves. -/
theorem findStart_garbage (sig : Nat → Nat) (g : List Nat) (c : Nat) (u : UART)
    (body : List Nat) (fuel : Nat) (hr : u.RxIdle) (hns : noSig sig (c :: (g ++ [sig 0])))
    (hfuel : g.length + 2 ≤ fuel) :
    ∃ v : UART, findStart sig fuel c u (g ++ sig 0 :: sig 1 :: body) = some (v, body)
      ∧ v.RxIdle := by
  induction g generalizing c u fuel with
  | nil =>
    obtain ⟨f, hf⟩ : ∃ f, fuel = f + 2 := ⟨fuel - 2, by simp at hfuel; omega⟩
    subst hf
    obtain ⟨v1, e1, i1⟩ := getByte_idle u (sig 0) (sig 1 :: body) hr
    obtain ⟨v2, e2, i2⟩ := getByte_idle v1 (sig 1) body i1
    have hno : ¬ (c = sig 0 ∧ sig 0 = sig 1) := hns.1
    refine ⟨v2, ?_, i2⟩
    rw [List.nil_append, findStart, e1]
    simp only [hno, if_false]
    rw [findStart, e2]
    simp only [and_self, if_true]
  | cons a g ih =>
    rw [List.length_cons] at hfuel
    obtain ⟨f, hf⟩ : ∃ f, fuel = f + 1 := ⟨fuel - 1, by omega⟩
    subst hf
    obtain ⟨v1, e1, i1⟩ := getByte_idle u a (g ++ sig 0 :: sig 1 :: body) hr
    have hno : ¬ (c = sig 0 ∧ a = sig 1) := hns.1
    obtain ⟨v, hv, hi⟩ := ih a v1 f i1 hns.2 (by omega)
    refine ⟨v, ?_, hi⟩
    rw [List.cons_append, findStart, e1]
    simp only [hno, if_false]
    exact hv

/-- `receive` on a port with an empty receive buffer and a line that holds garbage `g` and then
the signature: when no two adjacent bytes of `g` followed by `sig[0]` are the signature,
`receive` discards `g`, takes the two signature bytes and goes on with `afterStart`. -/
theorem receive_resync (r : UART) (sig buf : Nat → Nat) (maxlen : Nat) (g body : List Nat)
    (hr : r.RxIdle) (hns : noSig sig (g ++ [sig 0])) :
    ∃ v : UART, receive r (g ++ sig 0 :: sig 1 :: body) sig buf maxlen
        = afterStart v body buf maxlen ∧ v.RxIdle := by
  cases g with
  | nil =>
    obtain ⟨v1, e1, i1⟩ := getByte_idle r (sig 0) (sig 1 :: body) hr
    obtain ⟨v2, e2, i2⟩ := getByte_idle v1 (sig 1) body i1
    refine ⟨v2, ?_, i2⟩
    rw [List.nil_append, receive_eq, e1]
    simp only []
    rw [findStart, e2]
    simp only [and_self, if_true]
  | cons a g =>
    obtain ⟨v1, e1, i1⟩ := getByte_idle r a (g ++ sig 0 :: sig 1 :: body) hr
    obtain ⟨v, hv, hi⟩ := findStart_garbage sig g a v1 body
      (v1.m_rxBuffer.size + (g ++ sig 0 :: sig 1 :: body).length + 1) i1 hns
      (by simp only [List.length_append, List.length_cons]; omega)
    refine ⟨v, ?_, hi⟩
    rw [List.cons_append, receive_eq, e1]
    simp only []
    rw [hv]

/-- `receive` on a line that begins with the signature, followed by a header whose length
field is `L`, with `L + 4 ≤ maxlen`, then `L` payload bytes and two bytes `k1`, `k2`. -/
theorem receive_checked (r : UART) (sig msg buf : Nat → Nat) (L maxlen k1 k2 : Nat)
    (rest : List Nat) (hr : r.RxIdle) (hL : msg 2 + 256 * msg 3 = L) (hmax : L + 4 ≤ maxlen)
    (hmaxlen : maxlen < 65536) :
    ∃ (v : UART) (out : Nat → Nat),
      receive r (sig 0 :: sig 1 :: ((List.range (L + 4)).map msg ++ k1 :: k2 :: rest)) sig buf
          maxlen
          = some (if k1 = (compute_checksum msg (L + 4)).1
                    ∧ k2 = (compute_checksum msg (L + 4)).2 then L + 4 else 0, out, v, rest)
        ∧ (∀ i, i < L + 4 → out i = msg i)
        ∧ (∀ i, L + 4 ≤ i → out i = buf i)
        ∧ v.RxIdle := by
  obtain ⟨v1, e1, i1⟩ := receive_resync r sig buf maxlen []
    ((List.range (L + 4)).map msg ++ k1 :: k2 :: rest) hr trivial
  obtain ⟨v, out, e, o1, o2, o3⟩ := afterStart_checked v1 msg buf L maxlen k1 k2 rest i1 hL
    hmax hmaxlen
  refine ⟨v, out, ?_, o1, o2, o3⟩
  rw [List.nil_append] at e1
  rw [e1, e]

/-! ### The checksum of an altered message -/

theorem compute_checksum_succ (f : Nat → Nat) (n : Nat) :
    compute_checksum f (n + 1)
      = (((compute_checksum f n).1 + f n) % 256,
          ((compute_checksum f n).2 + ((compute_checksum f n).1 + f n) % 256) % 256) := by
  simp only [compute_checksum]
  rw [List.range_succ, List.foldl_append, List.foldl_cons, List.foldl_nil]

/-- The first checksum byte is the sum of the covered bytes modulo 256. -/
theorem compute_checksum_fst (f : Nat → Nat) (n : Nat) :
    (compute_checksum f n).1 = ((List.range n).map f).sum % 256 := by
  induction n with
  | zero => rfl
  | succ n ih =>
    rw [compute_checksum_succ, List.range_succ, List.map_append, List.sum_append,
      List.map_singleton, List.sum_singleton]
    simp only [ih, Nat.mod_add_mod]

theorem sum_update_ge (f : Nat → Nat) (i b n : Nat) (h : n ≤ i) :
    ((List.range n).map (Function.update f i b)).sum = ((List.range n).map f).sum := by
  congr 1
  apply List.map_congr_left
  intro k hk
  rw [List.mem_range] at hk
  exact Function.update_noteq (by omega) _ _

theorem sum_update_lt (f : Nat → Nat) (i b n : Nat) (h : i < n) :
    ((List.range n).map (Function.update f i b)).sum + f i = ((List.range n).map f).sum + b := by
  induction n with
  | zero => omega
  | succ n ih =>
    rw [List.range_succ, List.map_append, List.map_append, List.sum_append, List.sum_append,
      List.map_singleton, List.map_singleton, List.sum_singleton, List.sum_singleton]
    by_cases hin : i = n
    · subst hin
      rw [sum_update_ge f i b i (Nat.le_refl i), Function.update_same]
      omega
    · have ih2 := ih (by omega)
      rw [Function.update_noteq (Ne.symm hin)]
      omega

/-- Altering one covered byte changes the first checksum byte. -/
theorem checksum_fst_update (f : Nat → Nat) (i b n : Nat) (hi : i < n) (hf : f i < 256)
    (hb : b < 256) (hne : b ≠ f i) :
    (compute_checksum (Function.update f i b) n).1 ≠ (compute_checksum f n).1 := by
  rw [compute_checksum_fst, compute_checksum_fst]
  have h := sum_update_lt f i b n hi
  omega

theorem xor_pow_ne (x j : Nat) : x ^^^ 2 ^ j ≠ x := by
  intro h
  have h2 : x ^^^ 2 ^ j = x ^^^ 0 := by rw [Nat.xor_zero]; exact h
  have h3 := Nat.xor_right_injective h2
  exact absurd h3 (by positivity)

theorem xor_pow_lt (x j : Nat) (hx : x < 256) (hj : j < 8) : x ^^^ 2 ^ j < 256 := by
  have h : 2 ^ j < 2 ^ 8 := Nat.pow_lt_pow_right (by norm_num) hj
  exact Nat.xor_lt_two_pow (n := 8) hx h

/-- With an empty receive buffer and fewer bytes on the line than asked for, `getBytes` waits
for ever. -/
theorem getBytesLoop_short (line : List Nat) (u : UART) (mem : Nat → Nat) (i n : Nat)
    (hr : u.RxIdle) (hshort : line.length < n) :
    u.getBytesLoop line mem i n = none := by
  induction line generalizing u mem i n with
  | nil =>
    obtain ⟨m, hm⟩ : ∃ m, n = m + 1 := ⟨n - 1, by simp at hshort; omega⟩
    subst hm
    have h0 : u.m_rxBuffer.size = 0 := hr.1
    rw [getBytesLoop, getByte]
    simp only [h0, ne_eq, not_true_eq_false, if_false]
  | cons b line ih =>
    rw [List.length_cons] at hshort
    obtain ⟨m, hm⟩ : ∃ m, n = m + 1 := ⟨n - 1, by omega⟩
    subst hm
    obtain ⟨v, hv, hidle⟩ := getByte_idle u b line hr
    rw [getBytesLoop, hv]
    exact ih v _ _ m hidle (by omega)

/-- `afterStart` on a line that holds a header which passes the 16-bit length check, followed
by fewer bytes than the length field asks for: `receive` reads them as payload and waits. -/
theorem afterStart_starved (u : UART) (msg buf : Nat → Nat) (maxlen : Nat) (rest : List Nat)
    (hr : u.RxIdle) (hfit : (msg 2 + 256 * msg 3 + 4) % 65536 ≤ maxlen)
    (hshort : rest.length < msg 2 + 256 * msg 3) :
    afterStart u ((List.range 4).map msg ++ rest) buf maxlen = none := by
  obtain ⟨v3, e3, i3⟩ := getBytesLoop_idle ((List.range 4).map msg) u rest buf 0 4 rfl hr
  have hlen : store buf 0 ((List.range 4).map msg) 2
      + 256 * store buf 0 ((List.range 4).map msg) 3 = msg 2 + 256 * msg 3 := by
    rw [store_map_range, store_map_range, if_pos ⟨by omega, by omega⟩,
      if_pos ⟨by omega, by omega⟩]
  rw [afterStart]
  simp only [getBytes, e3, hlen]
  rw [if_neg (by omega), getBytesLoop_short rest v3 _ 4 _ i3 hshort]

/-! ### The claims on `receive` -/

/-- C11, the code at a failing input. With `maxlen = 11` and a line that holds the signature
`AA 55`, the header `01 02 FF FF` (`LENGTH = 65535`) and three more bytes, `receive` does not
return `0` after the header: the 16-bit sum `LENGTH + 4` is `3`, the check passes, and
`receive` reads the three bytes as payload and waits for more. With the header `01 02 FB FF`
(`LENGTH = 65531`, the sum does not wrap) it returns `0` and leaves the three bytes unread. -/
theorem oversize_not_rejected :
    (65535 + 4 > 11)
      ∧ receive (UART.initial.setup 128 128) [0xAA, 0x55, 0x01, 0x02, 0xFF, 0xFF, 9, 9, 9]
          exampleSig (fun _ => 0) 11 = none
      ∧ (receive (UART.initial.setup 128 128) [0xAA, 0x55, 0x01, 0x02, 0xFB, 0xFF, 9, 9, 9]
          exampleSig (fun _ => 0) 11).map (fun r => (r.1, r.2.2.2)) = some (0, [9, 9, 9]) := by
  refine ⟨by decide, ?_, ?_⟩
  · obtain ⟨v, e, hv⟩ := receive_resync (UART.initial.setup 128 128) exampleSig (fun _ => 0) 11
      [] [0x01, 0x02, 0xFF, 0xFF, 9, 9, 9] (by decide) trivial
    have e2 : receive (UART.initial.setup 128 128)
        [0xAA, 0x55, 0x01, 0x02, 0xFF, 0xFF, 9, 9, 9] exampleSig (fun _ => 0) 11
        = afterStart v [0x01, 0x02, 0xFF, 0xFF, 9, 9, 9] (fun _ => 0) 11 := e
    rw [e2]
    exact afterStart_starved v (fun i => [0x01, 0x02, 0xFF, 0xFF].getD i 0) (fun _ => 0) 11
      [9, 9, 9] hv (by decide) (by decide)
  · obtain ⟨v, e, hv⟩ := receive_resync (UART.initial.setup 128 128) exampleSig (fun _ => 0) 11
      [] [0x01, 0x02, 0xFB, 0xFF, 9, 9, 9] (by decide) trivial
    have e2 : receive (UART.initial.setup 128 128)
        [0xAA, 0x55, 0x01, 0x02, 0xFB, 0xFF, 9, 9, 9] exampleSig (fun _ => 0) 11
        = afterStart v [0x01, 0x02, 0xFB, 0xFF, 9, 9, 9] (fun _ => 0) 11 := e
    obtain ⟨w, e3, _⟩ := afterStart_oversize v (fun i => [0x01, 0x02, 0xFB, 0xFF].getD i 0)
      (fun _ => 0) 11 [9, 9, 9] hv (by decide)
    have e4 : afterStart v [0x01, 0x02, 0xFB, 0xFF, 9, 9, 9] (fun _ => 0) 11
        = some (0, store (fun _ => 0) 0
            ((List.range 4).map (fun i => [0x01, 0x02, 0xFB, 0xFF].getD i 0)), w, [9, 9, 9]) :=
      e3
    rw [e2, e4]
    rfl

/-- C12. Checksum verdict of `receive`. On a port with an empty receive buffer and a line that
begins with the signature, then a header whose length field is `L` with `L + 4 ≤ maxlen`, then
`L` payload bytes and two bytes `k1`, `k2`: `receive` returns `L + 4` if `(k1, k2)` is the
checksum of header and payload and `0` otherwise. In both cases it has stored header and
payload and has taken exactly those `2 + 4 + L + 2` bytes: the line is left after `k2`. -/
theorem checksum_verdict (r : UART) (sig msg buf : Nat → Nat) (L maxlen k1 k2 : Nat)
    (rest : List Nat) (hr : r.RxIdle) (hL : msg 2 + 256 * msg 3 = L) (hmax : L + 4 ≤ maxlen)
    (hmaxlen : maxlen < 65536) :
    ∃ (v : UART) (out : Nat → Nat),
      receive r (sig 0 :: sig 1 :: ((List.range (L + 4)).map msg ++ k1 :: k2 :: rest)) sig buf
          maxlen
          = some (if k1 = (compute_checksum msg (L + 4)).1
                    ∧ k2 = (compute_checksum msg (L + 4)).2 then L + 4 else 0, out, v, rest)
        ∧ (∀ i, i < L + 4 → out i = msg i)
        ∧ (∀ i, L + 4 ≤ i → out i = buf i) := by
  obtain ⟨v, out, e, o1, o2, _⟩ := receive_checked r sig msg buf L maxlen k1 k2 rest hr hL hmax
    hmaxlen
  exact ⟨v, out, e, o1, o2⟩

theorem checksum_verdict_witness :
    (if 0x66 = (compute_checksum exampleMsg (3 + 4)).1
        ∧ 0xC3 = (compute_checksum exampleMsg (3 + 4)).2 then 3 + 4 else 0) = 0
      ∧ ∃ (v : UART) (out : Nat → Nat),
          receive (UART.initial.setup 128 128)
              (exampleSig 0 :: exampleSig 1 ::
                ((List.range (3 + 4)).map exampleMsg ++ 0x66 :: 0xC3 :: [5, 6]))
              exampleSig (fun _ => 0) 11
            = some (if 0x66 = (compute_checksum exampleMsg (3 + 4)).1
                      ∧ 0xC3 = (compute_checksum exampleMsg (3 + 4)).2 then 3 + 4 else 0,
                out, v, [5, 6])
          ∧ (∀ i, i < 3 + 4 → out i = exampleMsg i)
          ∧ (∀ i, 3 + 4 ≤ i → out i = (fun _ => 0) i) :=
  ⟨by decide,
    checksum_verdict (UART.initial.setup 128 128) exampleSig exampleMsg (fun _ => 0) 3 11 0x66
      0xC3 [5, 6] (by decide) (by decide) (by decide) (by decide)⟩

/-- C14, a counterexample. The garbage `AA 55` (the signature itself) followed by the valid
frame of the end-to-end scenario, read with `maxlen = 11`: `receive` takes the garbage for the
message start, reads `AA 55 01 02` as the header and returns `0`, not `7`; five bytes of the
frame and its checksum are left on the line. -/
theorem resync_counterexample :
    (receive (UART.initial.setup 128 128) ([0xAA, 0x55] ++ frame exampleSig exampleMsg 7)
        exampleSig (fun _ => 0) 11).map (fun r => (r.1, r.2.2.2))
      = some (0, [0x03, 0x00, 0x10, 0x20, 0x30, 0x66, 0xC2]) := by
  decide

/-- C14, amended. Resynchronisation: for every garbage `g` such that no two adjacent bytes of
`g` followed by `sig[0]` are the signature, and every valid frame fitting `maxlen`, `receive`
reading `g` followed by the frame (and any bytes `rest`) returns the length `4 + LENGTH` of the
frame's message and its header and payload bytes, having discarded exactly the bytes of `g`
and taken the frame: `rest` is what remains. -/
theorem resync (r : UART) (sig msg buf : Nat → Nat) (L maxlen : Nat) (g rest : List Nat)
    (hr : r.RxIdle) (hns : noSig sig (g ++ [sig 0])) (hL : msg 2 + 256 * msg 3 = L)
    (hmax : L + 4 ≤ maxlen) (hmaxlen : maxlen < 65536) :
    ∃ (v : UART) (out : Nat → Nat),
      receive r (g ++ frame sig msg (L + 4) ++ rest) sig buf maxlen
          = some (L + 4, out, v, rest)
        ∧ (∀ i, i < L + 4 → out i = msg i)
        ∧ (∀ i, L + 4 ≤ i → out i = buf i) := by
  obtain ⟨v1, e1, i1⟩ := receive_resync r sig buf maxlen g
    ((List.range (L + 4)).map msg
      ++ (compute_checksum msg (L + 4)).1 :: (compute_checksum msg (L + 4)).2 :: rest) hr hns
  obtain ⟨v, out, e, o1, o2, _⟩ := afterStart_checked v1 msg buf L maxlen
    (compute_checksum msg (L + 4)).1 (compute_checksum msg (L + 4)).2 rest i1 hL hmax hmaxlen
  refine ⟨v, out, ?_, o1, o2⟩
  have hline : g ++ frame sig msg (L + 4) ++ rest
      = g ++ sig 0 :: sig 1 :: ((List.range (L + 4)).map msg
          ++ (compute_checksum msg (L + 4)).1 :: (compute_checksum msg (L + 4)).2 :: rest) := by
    simp only [frame, List.append_assoc, List.cons_append, List.nil_append]
  rw [hline, e1, e, if_pos ⟨rfl, rfl⟩]

theorem resync_witness :
    noSig exampleSig ([0x55, 0xAA, 0xAA] ++ [exampleSig 0])
      ∧ ∃ (v : UART) (out : Nat → Nat),
          receive (UART.initial.setup 128 128)
              ([0x55, 0xAA, 0xAA] ++ frame exampleSig exampleMsg (3 + 4) ++ [5, 6]) exampleSig
              (fun _ => 0) 11
            = some (3 + 4, out, v, [5, 6])
          ∧ (∀ i, i < 3 + 4 → out i = exampleMsg i)
          ∧ (∀ i, 3 + 4 ≤ i → out i = (fun _ => 0) i) :=
  ⟨⟨by decide, by decide, by decide, trivial⟩,
    resync (UART.initial.setup 128 128) exampleSig exampleMsg (fun _ => 0) 3 11
      [0x55, 0xAA, 0xAA] [5, 6] (by decide) ⟨by decide, by decide, by decide, trivial⟩
      (by decide) (by decide) (by decide)⟩

/-- C15, a counterexample. The message `00 01 00 00` (no payload) has the valid frame
`AA 55 00 01 00 00 01 03`. With bit 0 of the low length byte flipped the frame reads
`AA 55 00 01 01 00 01 03`; followed on the line by the byte `08`, `receive` takes `01` as
payload and `03 08` as checksum, which is the checksum of `00 01 01 00 01`, and returns `5`. -/
theorem corruption_counterexample :
    frame exampleSig (fun i => [0, 1, 0, 0].getD i 0) 4
        = [0xAA, 0x55, 0x00, 0x01, 0x00, 0x00, 0x01, 0x03]
      ∧ 0x00 ^^^ 2 ^ 0 = 0x01
      ∧ (receive (UART.initial.setup 128 128)
          ([0xAA, 0x55, 0x00, 0x01, 0x01, 0x00, 0x01, 0x03] ++ [0x08, 9]) exampleSig
          (fun _ => 0) 11).map (fun r => (r.1, r.2.2.2)) = some (5, [9]) := by
  refine ⟨by decide, by norm_num, ?_⟩
  obtain ⟨v, out, e, _⟩ := receive_checked (UART.initial.setup 128 128) exampleSig
    (fun i => [0x00, 0x01, 0x01, 0x00, 0x01].getD i 0) (fun _ => 0) 1 11 0x03 0x08 [9]
    (by decide) (by decide) (by decide) (by decide)
  have e2 : receive (UART.initial.setup 128 128)
      ([0xAA, 0x55, 0x00, 0x01, 0x01, 0x00, 0x01, 0x03] ++ [0x08, 9]) exampleSig (fun _ => 0) 11
      = some (if 0x03 = (compute_checksum (fun i => [0x00, 0x01, 0x01, 0x00, 0x01].getD i 0)
                (1 + 4)).1
              ∧ 0x08 = (compute_checksum (fun i => [0x00, 0x01, 0x01, 0x00, 0x01].getD i 0)
                (1 + 4)).2 then 1 + 4 else 0, out, v, [9]) := e
  have e3 : (if 0x03 = (compute_checksum (fun i => [0x00, 0x01, 0x01, 0x00, 0x01].getD i 0)
                (1 + 4)).1
              ∧ 0x08 = (compute_checksum (fun i => [0x00, 0x01, 0x01, 0x00, 0x01].getD i 0)
                (1 + 4)).2 then 1 + 4 else 0) = 5 := by decide
  rw [e2, e3]
  rfl

/-- C15, amended. Corruption detection outside the length field: for every valid frame
(byte-valued message, `LENGTH + 4 ≤ maxlen`) and every flip of one bit `j` in a byte of class,
id or payload (index `i` of the message other than 2 and 3) or in one of the two checksum
bytes, `receive` reading the corrupted frame, whatever bytes `rest` follow it, returns `0`
and has taken exactly the bytes of the frame. -/
theorem corruption_detected (r : UART) (sig msg buf : Nat → Nat) (L maxlen j : Nat)
    (rest : List Nat) (hr : r.RxIdle) (hL : msg 2 + 256 * msg 3 = L) (hmax : L + 4 ≤ maxlen)
    (hmaxlen : maxlen < 65536) (hj : j < 8) :
    (∀ i, i < L + 4 → i ≠ 2 → i ≠ 3 → msg i < 256 →
        ∃ (v : UART) (out : Nat → Nat),
          receive r
              (sig 0 :: sig 1 ::
                ((List.range (L + 4)).map (Function.update msg i (msg i ^^^ 2 ^ j))
                  ++ (compute_checksum msg (L + 4)).1 :: (compute_checksum msg (L + 4)).2
                    :: rest))
              sig buf maxlen
            = some (0, out, v, rest))
      ∧ (∃ (v : UART) (out : Nat → Nat),
          receive r
              (sig 0 :: sig 1 ::
                ((List.range (L + 4)).map msg
                  ++ ((compute_checksum msg (L + 4)).1 ^^^ 2 ^ j)
                    :: (compute_checksum msg (L + 4)).2 :: rest))
              sig buf maxlen
            = some (0, out, v, rest))
      ∧ (∃ (v : UART) (out : Nat → Nat),
          receive r
              (sig 0 :: sig 1 ::
                ((List.range (L + 4)).map msg
                  ++ (compute_checksum msg (L + 4)).1
                    :: ((compute_checksum msg (L + 4)).2 ^^^ 2 ^ j) :: rest))
              sig buf maxlen
            = some (0, out, v, rest)) := by
  refine ⟨?_, ?_, ?_⟩
  · intro i hi h2 h3 hb
    have hL2 : Function.update msg i (msg i ^^^ 2 ^ j) 2
        + 256 * Function.update msg i (msg i ^^^ 2 ^ j) 3 = L := by
      rw [Function.update_noteq (Ne.symm h2), Function.update_noteq (Ne.symm h3)]
      exact hL
    obtain ⟨v, out, e, _⟩ := receive_checked r sig (Function.update msg i (msg i ^^^ 2 ^ j))
      buf L maxlen (compute_checksum msg (L + 4)).1 (compute_checksum msg (L + 4)).2 rest hr
      hL2 hmax hmaxlen
    have hne := checksum_fst_update msg i (msg i ^^^ 2 ^ j) (L + 4) hi hb
      (xor_pow_lt _ _ hb hj) (xor_pow_ne _ _)
    refine ⟨v, out, ?_⟩
    rw [e, if_neg (fun h => hne h.1.symm)]
  · obtain ⟨v, out, e, _⟩ := receive_checked r sig msg buf L maxlen
      ((compute_checksum msg (L + 4)).1 ^^^ 2 ^ j) (compute_checksum msg (L + 4)).2 rest hr hL
      hmax hmaxlen
    refine ⟨v, out, ?_⟩
    rw [e, if_neg (fun h => xor_pow_ne _ _ h.1)]
  · obtain ⟨v, out, e, _⟩ := receive_checked r sig msg buf L maxlen
      (compute_checksum msg (L + 4)).1 ((compute_checksum msg (L + 4)).2 ^^^ 2 ^ j) rest hr hL
      hmax hmaxlen
    refine ⟨v, out, ?_⟩
    rw [e, if_neg (fun h => xor_pow_ne _ _ h.2)]

theorem corruption_detected_witness :
    (∃ (v : UART) (out : Nat → Nat),
        receive (UART.initial.setup 128 128)
            (exampleSig 0 :: exampleSig 1 ::
              ((List.range (3 + 4)).map (Function.update exampleMsg 5 (exampleMsg 5 ^^^ 2 ^ 7))
                ++ (compute_checksum exampleMsg (3 + 4)).1
                  :: (compute_checksum exampleMsg (3 + 4)).2 :: [5, 6]))
            exampleSig (fun _ => 0) 11
          = some (0, out, v, [5, 6]))
      ∧ (List.range (3 + 4)).map (Function.update exampleMsg 5 (exampleMsg 5 ^^^ 2 ^ 7))
          = [0x01, 0x02, 0x03, 0x00, 0x10, 0xA0, 0x30] :=
  ⟨(corruption_detected (UART.initial.setup 128 128) exampleSig exampleMsg (fun _ => 0) 3 11 7
      [5, 6] (by decide) (by decide) (by decide) (by decide) (by decide)).1 5 (by decide)
      (by decide) (by decide) (by decide),
    by decide⟩

end Message

/-! ## The checksum as a function of the bytes -/

namespace Message

theorem weighted_sum_succ (f : Nat → Nat) (n : Nat) :
    ((List.range (n + 1)).map (fun i => (n + 1 - i) * f i)).sum
      = ((List.range n).map (fun i => (n - i) * f i)).sum + ((List.range (n + 1)).map f).sum := by
  have h1 : (List.range n).map (fun i => (n + 1 - i) * f i)
      = (List.range n).map (fun i => (n - i) * f i + f i) := by
    apply List.map_congr_left
    intro i hi
    rw [List.mem_range] at hi
    have e : n + 1 - i = (n - i) + 1 := by omega
    rw [e, Nat.succ_mul]
  rw [List.range_succ, List.map_append, List.map_append, List.sum_append, List.sum_append,
    List.map_singleton, List.map_singleton, List.sum_singleton, List.sum_singleton, h1,
    List.sum_map_add]
  have e : n + 1 - n = 1 := by omega
  rw [e, Nat.one_mul]
  omega

/-- The second checksum byte is the sum of the covered bytes, each weighted with the number of
bytes from it to the end, modulo 256. -/
theorem compute_checksum_snd (f : Nat → Nat) (n : Nat) :
    (compute_checksum f n).2 = ((List.range n).map (fun i => (n - i) * f i)).sum % 256 := by
  induction n with
  | zero => rfl
  | succ n ih =>
    have h1 := compute_checksum_fst f (n + 1)
    rw [compute_checksum_succ] at h1
    rw [compute_checksum_succ, weighted_sum_succ]
    simp only [] at h1 ⊢
    rw [h1, ih]
    omega

theorem weighted_sum_update (w f : Nat → Nat) (i b n : Nat) (h : i < n) :
    ((List.range n).map (fun k => w k * Function.update f i b k)).sum + w i * f i
      = ((List.range n).map (fun k => w k * f k)).sum + w i * b := by
  have e : (List.range n).map (fun k => w k * Function.update f i b k)
      = (List.range n).map (Function.update (fun k => w k * f k) i (w i * b)) := by
    apply List.map_congr_left
    intro k _
    by_cases hk : k = i
    · subst hk
      rw [Function.update_same, Function.update_same]
    · rw [Function.update_noteq hk, Function.update_noteq hk]
  rw [e]
  exact sum_update_lt (fun k => w k * f k) i (w i * b) n h

/-- The two sums of the checksum for a sequence with two adjacent bytes exchanged: the plain
sum is the same, the weighted sum moves by the difference of the two bytes. -/
theorem sums_of_swap (f : Nat → Nat) (n i : Nat) (hi : i + 1 < n) :
    ((List.range n).map
          (Function.update (Function.update f i (f (i + 1))) (i + 1) (f i))).sum
        = ((List.range n).map f).sum
      ∧ ((List.range n).map (fun k => (n - k)
            * Function.update (Function.update f i (f (i + 1))) (i + 1) (f i) k)).sum + f i
        = ((List.range n).map (fun k => (n - k) * f k)).sum + f (i + 1) := by
  have hne : i + 1 ≠ i := by omega
  have s1 := sum_update_lt f i (f (i + 1)) n (by omega)
  have s2 := sum_update_lt (Function.update f i (f (i + 1))) (i + 1) (f i) n hi
  have w1 := weighted_sum_update (fun k => n - k) f i (f (i + 1)) n (by omega)
  have w2 := weighted_sum_update (fun k => n - k) (Function.update f i (f (i + 1))) (i + 1)
    (f i) n hi
  rw [Function.update_noteq hne] at s2 w2
  simp only [] at w1 w2
  have e : n - i = (n - (i + 1)) + 1 := by omega
  rw [e, Nat.succ_mul, Nat.succ_mul] at w1
  exact ⟨by omega, by omega⟩

/-! ### The claims on the checksum -/

/-- C22. The checksum of the bytes `b_0 .. b_(n-1)` is the result of the iteration
`c1 = (c1 + b) mod 256; c2 = (c2 + c1) mod 256` over the bytes in order from `c1 = c2 = 0`,
and its two bytes are `c1 = (sum of b_i) mod 256` and `c2 = (sum of (n - i) * b_i) mod 256`. -/
theorem checksum_reference (f : Nat → Nat) (n : Nat) :
    compute_checksum f 0 = (0, 0)
      ∧ compute_checksum f (n + 1)
          = (((compute_checksum f n).1 + f n) % 256,
              ((compute_checksum f n).2 + ((compute_checksum f n).1 + f n) % 256) % 256)
      ∧ (compute_checksum f n).1 = ((List.range n).map f).sum % 256
      ∧ (compute_checksum f n).2 = ((List.range n).map (fun i => (n - i) * f i)).sum % 256 :=
  ⟨rfl, compute_checksum_succ f n, compute_checksum_fst f n, compute_checksum_snd f n⟩

/-- C23. Two byte sequences `f` and `g` of the same length `n` that differ in exactly one
position `i` have different checksums, and their first checksum bytes already differ. -/
theorem single_byte_change_detected (f g : Nat → Nat) (n i : Nat) (hi : i < n)
    (hf : f i < 256) (hg : g i < 256) (hne : f i ≠ g i)
    (hsame : ∀ k, k < n → k ≠ i → f k = g k) :
    (compute_checksum f n).1 ≠ (compute_checksum g n).1
      ∧ compute_checksum f n ≠ compute_checksum g n := by
  have e : compute_checksum g n = compute_checksum (Function.update f i (g i)) n := by
    apply compute_checksum_congr
    intro k hk
    by_cases hki : k = i
    · subst hki
      rw [Function.update_same]
    · rw [Function.update_noteq hki, hsame k hk hki]
  have h := checksum_fst_update f i (g i) n hi hf hg (Ne.symm hne)
  rw [← e] at h
  exact ⟨fun c => h c.symm, fun c => h (congrArg Prod.fst c).symm⟩

theorem single_byte_change_detected_witness :
    compute_checksum exampleMsg 7 ≠ compute_checksum (Function.update exampleMsg 5 0x21) 7 :=
  (single_byte_change_detected exampleMsg (Function.update exampleMsg 5 0x21) 7 5 (by decide)
    (by decide) (by decide) (by decide)
    (fun _ _ hk => (Function.update_noteq hk _ _).symm)).2

/-- C24. For a byte sequence `f` of length `n` whose adjacent positions `i` and `i + 1` hold
different byte values, the sequence `g` with these two bytes exchanged has the same first
checksum byte, a different second checksum byte, and so a different checksum. -/
theorem adjacent_swap_detected (f g : Nat → Nat) (n i : Nat) (hi : i + 1 < n)
    (hf : f i < 256) (hf1 : f (i + 1) < 256) (hne : f i ≠ f (i + 1))
    (hg : g i = f (i + 1)) (hg1 : g (i + 1) = f i)
    (hsame : ∀ k, k < n → k ≠ i → k ≠ i + 1 → g k = f k) :
    (compute_checksum g n).1 = (compute_checksum f n).1
      ∧ (compute_checksum g n).2 ≠ (compute_checksum f n).2
      ∧ compute_checksum g n ≠ compute_checksum f n := by
  have e : compute_checksum g n
      = compute_checksum (Function.update (Function.update f i (f (i + 1))) (i + 1) (f i))
          n := by
    apply compute_checksum_congr
    intro k hk
    by_cases hk1 : k = i + 1
    · subst hk1
      rw [Function.update_same, hg1]
    · rw [Function.update_noteq hk1]
      by_cases hk0 : k = i
      · subst hk0
        rw [Function.update_same, hg]
      · rw [Function.update_noteq hk0, hsame k hk hk0 hk1]
  obtain ⟨s, w⟩ := sums_of_swap f n i hi
  have h1 : (compute_checksum g n).1 = (compute_checksum f n).1 := by
    rw [e, compute_checksum_fst, compute_checksum_fst, s]
  have h2 : (compute_checksum g n).2 ≠ (compute_checksum f n).2 := by
    rw [e, compute_checksum_snd, compute_checksum_snd]
    omega
  exact ⟨h1, h2, fun c => h2 (congrArg Prod.snd c)⟩

theorem adjacent_swap_detected_witness :
    compute_checksum
        (Function.update (Function.update exampleMsg 4 (exampleMsg 5)) 5 (exampleMsg 4)) 7
      ≠ compute_checksum exampleMsg 7 :=
  (adjacent_swap_detected exampleMsg
    (Function.update (Function.update exampleMsg 4 (exampleMsg 5)) 5 (exampleMsg 4)) 7 4
    (by decide) (by decide) (by decide) (by decide) (by decide) (by decide)
    (fun _ _ h0 h1 => by
      rw [Function.update_noteq h1, Function.update_noteq h0])).2.2

end Message

/-! ## `Timer1::elapsed` -/

namespace Timer1

/-- With the prescale factors 1, 8 and 64 the product `factor * 1000` fits 16 bits, and
`elapsed()` is the tick count divided by the number of ticks per millisecond. -/
theorem elapsed_small_factor (t k : Nat) (ht : t < 65536) (hk : k < 65536) :
    elapsed t k 1 = (t + 65536 * k) / (16000000 / (1000 * 1))
      ∧ elapsed t k 2 = (t + 65536 * k) / (16000000 / (1000 * 8))
      ∧ elapsed t k 3 = (t + 65536 * k) / (16000000 / (1000 * 64)) := by
  have e : (t + 65536 * k) % 4294967296 = t + 65536 * k := Nat.mod_eq_of_lt (by omega)
  refine ⟨?_, ?_, ?_⟩ <;>
    norm_num [elapsed, _getTimerPrescaleFactor, prescalingFactors, F_CPU, e]

/-- C26, the code at two failing inputs. With the prescaler `CLK_256` (`TCCR1B = 0x04`), the
counter at `0` and one overflow counted, `elapsed()` returns `243`, where the tick count
`65536` divided by the `62` ticks per millisecond is `1057`: the 16-bit product `256 * 1000`
is `59392`. With `CLK_1024` (`TCCR1B = 0x05`) it returns `168`, where `65536` divided by `15`
is `4369`. -/
theorem elapsed_wrong_for_large_factor :
    _getTimerPrescaleFactor 4 = 256
      ∧ elapsed 0 1 4 = 243
      ∧ (0 + 65536 * 1) / (16000000 / (1000 * 256)) = 1057
      ∧ _getTimerPrescaleFactor 5 = 1024
      ∧ elapsed 0 1 5 = 168
      ∧ (0 + 65536 * 1) / (16000000 / (1000 * 1024)) = 4369 := by
  refine ⟨?_, ?_, ?_, ?_, ?_, ?_⟩ <;>
    norm_num [elapsed, _getTimerPrescaleFactor, prescalingFactors, F_CPU]

end Timer1

namespace UART

/-! ### `sendBytes` of no bytes -/

/-- The call `sendBytes(data, 0)` on a transmit buffer that holds bytes changes neither the
transmit buffer nor the data register. -/
theorem sendBytes_zero_busy (u : UART) (data : Nat → Nat) (h : u.m_txBuffer.size ≠ 0) :
    (u.sendBytes data 0).2 = u := by
  simp only [sendBytes, List.range_zero, List.foldl_nil, h, if_false]

/-- C28, the code at a failing input. On a port just set up with buffers of 128 bytes, whose
transmit buffer is empty and whose data register was never written, `sendBytes(data, 0)`
writes the byte `0` to the data register. -/
theorem sendBytes_zero_writes_UDR :
    (UART.initial.setup 128 128).m_txBuffer.size = 0
      ∧ (UART.initial.setup 128 128).UDR = []
      ∧ ((UART.initial.setup 128 128).sendBytes (fun _ => 0x41) 0).2.UDR = [0] := by
  decide

end UART

namespace UART

/-! ### The receive side, read from a buffer that holds the bytes -/

/-- With a byte in the receive buffer, `getByte` pops it without a wait: the line is left as it
is. -/
theorem getByte_buffered (u : UART) (line : List Nat) (h : u.m_rxBuffer.m_datalength ≠ 0) :
    u.getByte line
      = some (u.m_rxBuffer.pop_front.1, { u with m_rxBuffer := u.m_rxBuffer.pop_front.2 },
          line) := by
  have hs : u.m_rxBuffer.size ≠ 0 := h
  rw [getByte.eq_def, if_pos hs]

theorem getBytesLoop_buffered (n : Nat) (u : UART) (line : List Nat) (mem : Nat → Nat) (i : Nat)
    (h : u.m_rxBuffer.Inv) (hn : n ≤ u.m_rxBuffer.m_datalength) :
    u.getBytesLoop line mem i n
      = some (store mem i (u.m_rxBuffer.popFronts n).1,
          { u with m_rxBuffer := (u.m_rxBuffer.popFronts n).2 }, line) := by
  induction n generalizing u mem i with
  | zero => rfl
  | succ n ih =>
    obtain ⟨_, p2, p3, p4, _⟩ := CBuffer.pop_front_toList u.m_rxBuffer h (by omega)
    have hinv : u.m_rxBuffer.pop_front.2.Inv := by
      obtain ⟨h1, h2, h3⟩ := h
      exact ⟨by rw [p3]; exact h1, by rw [p3]; omega,
        by rw [p2, p3]; exact Nat.mod_lt _ (by omega)⟩
    rw [getBytesLoop, getByte_buffered u line (by omega)]
    simp only []
    rw [ih { u with m_rxBuffer := u.m_rxBuffer.pop_front.2 } _ _ hinv
      (show n ≤ u.m_rxBuffer.pop_front.2.m_datalength by omega)]
    rfl

/-! ### The claim on the arrival order -/

/-- C21. Whenever the receive buffer holds at least `n` bytes, `getBytes(dest, n)` returns
without a wait (whatever the line delivers, nothing is taken from it), has stored in
`dest[0..n)` the `n` oldest bytes of the buffer in their order and changed no other address,
and leaves the remaining bytes in the buffer in their order; `getByte` on a buffer that is not
empty returns the oldest byte and leaves the others. -/
theorem getBytes_buffered (u : UART) (line : List Nat) (mem : Nat → Nat) (dest n : Nat)
    (h : u.m_rxBuffer.Inv) (hn : n ≤ u.m_rxBuffer.size) :
    (∃ (v : UART) (out : Nat → Nat),
        u.getBytes line mem dest n = some (out, v, line)
          ∧ (∀ j, j < n → u.m_rxBuffer.toList[j]? = some (out (dest + j)))
          ∧ (∀ a, a < dest ∨ dest + n ≤ a → out a = mem a)
          ∧ v.m_rxBuffer.toList = u.m_rxBuffer.toList.drop n
          ∧ v.m_rxBuffer.size + n = u.m_rxBuffer.size)
      ∧ (0 < u.m_rxBuffer.size →
          ∃ (x : Nat) (v : UART), u.getByte line = some (x, v, line)
            ∧ u.m_rxBuffer.toList = x :: v.m_rxBuffer.toList) := by
  constructor
  · obtain ⟨q1, q2, _, _, q5, _⟩ := CBuffer.popFronts_toList n u.m_rxBuffer h hn
    have hlen : (u.m_rxBuffer.toList.take n).length = n := by
      rw [List.length_take]
      simp only [CBuffer.toList, List.length_map, List.length_range]
      exact Nat.min_eq_left hn
    refine ⟨{ u with m_rxBuffer := (u.m_rxBuffer.popFronts n).2 },
      store mem dest (u.m_rxBuffer.toList.take n), ?_, ?_, ?_, q2, q5⟩
    · rw [getBytes, getBytesLoop_buffered n u line mem dest h hn, q1]
    · intro j hj
      rw [← store_getElem? (u.m_rxBuffer.toList.take n) mem dest j (by rw [hlen]; exact hj),
        List.getElem?_take_of_lt hj]
    · intro a ha
      rcases ha with ha | ha
      · exact store_of_lt _ _ _ _ ha
      · exact store_of_ge _ _ _ _ (by rw [hlen]; exact ha)
  · intro h0
    have hne : u.m_rxBuffer.m_datalength ≠ 0 := Nat.pos_iff_ne_zero.mp h0
    obtain ⟨p1, _⟩ := CBuffer.pop_front_toList u.m_rxBuffer h hne
    exact ⟨_, _, getByte_buffered u line hne, p1⟩

theorem getBytes_buffered_witness :
    ∃ (v : UART) (out : Nat → Nat),
      ((((UART.initial.setup 4 4).receiveService 7).receiveService 8).receiveService
          9).getBytes [] (fun _ => 0) 10 2 = some (out, v, [])
        ∧ (∀ j, j < 2 →
            ((((UART.initial.setup 4 4).receiveService 7).receiveService 8).receiveService
              9).m_rxBuffer.toList[j]? = some (out (10 + j)))
        ∧ (∀ a, a < 10 ∨ 10 + 2 ≤ a → out a = (fun _ => 0) a)
        ∧ v.m_rxBuffer.toList
            = ((((UART.initial.setup 4 4).receiveService 7).receiveService 8).receiveService
                9).m_rxBuffer.toList.drop 2
        ∧ v.m_rxBuffer.size + 2
            = ((((UART.initial.setup 4 4).receiveService 7).receiveService 8).receiveService
                9).m_rxBuffer.size :=
  (getBytes_buffered
    ((((UART.initial.setup 4 4).receiveService 7).receiveService 8).receiveService 9) []
    (fun _ => 0) 10 2 (by decide) (by decide)).1

end UART

namespace CBuffer

/-- Pushing more bytes than the buffer has room for: a push is rejected. -/
theorem pushAll_rejects (xs : List Nat) (b : CBuffer) (hs : b.m_size < 65536)
    (hl : b.m_datalength ≤ b.m_size) (hover : b.m_size - b.m_datalength < xs.length) :
    false ∈ (b.pushAll xs).1 := by
  obtain ⟨p1, _⟩ := pushAll_flags xs b hs hl
  rw [p1]
  exact List.mem_append_right _ (List.mem_replicate.mpr ⟨by omega, rfl⟩)

/-- The bytes accepted in a run of pushes are no more than the room in the buffer. -/
theorem accepted_le_room (xs : List Nat) (b : CBuffer) (hs : b.m_size < 65536)
    (hl : b.m_datalength ≤ b.m_size) :
    ((xs.zip (b.pushAll xs).1).filterMap (fun p => if p.2 then some p.1 else none)).length
        + b.m_datalength ≤ b.m_size := by
  induction xs generalizing b with
  | nil => simpa [pushAll] using hl
  | cons x xs ih =>
    by_cases h : b.m_datalength < b.m_size
    · have hflag : (b.push_back x).1 = true := by simp only [push_back, h, if_true]
      have hsz : (b.push_back x).2.m_size = b.m_size := by simp only [push_back, h, if_true]
      have hlen : (b.push_back x).2.m_datalength = b.m_datalength + 1 := by
        simp only [push_back, h, if_true]
        omega
      have i := ih (b.push_back x).2 (by rw [hsz]; exact hs) (by rw [hsz, hlen]; omega)
      rw [hsz, hlen] at i
      simp only [pushAll, List.zip_cons_cons, List.filterMap_cons, hflag, if_true,
        List.length_cons]
      omega
    · have hflag : (b.push_back x).1 = false := by simp only [push_back, h, if_false]
      have hb : (b.push_back x).2 = b := by simp only [push_back, h, if_false]
      have i := ih b hs hl
      simp only [pushAll, List.zip_cons_cons, List.filterMap_cons, hflag, hb]
      exact i

end CBuffer

namespace UART

theorem accepted_length_le (u : UART) (data : Nat → Nat) (n : Nat) :
    (u.accepted data n).length ≤ n := by
  unfold accepted
  refine (List.length_filterMap_le _ _).trans ?_
  rw [List.length_zip, List.length_map, List.length_range]
  exact Nat.min_le_left _ _

theorem accepted_length_room (u : UART) (data : Nat → Nat) (n : Nat)
    (hs : u.m_txBuffer.m_size < 65536) (hl : u.m_txBuffer.m_datalength ≤ u.m_txBuffer.m_size) :
    (u.accepted data n).length + u.m_txBuffer.m_datalength ≤ u.m_txBuffer.m_size :=
  CBuffer.accepted_le_room ((List.range n).map data) u.m_txBuffer hs hl

end UART

namespace Message

/-! ### `canSend` before `send` -/

/-- While `msglen + 4` fits 16 bits, a true `canSend` means room for the frame: every byte of
the following `send` is accepted by the transmit buffer. -/
theorem canSend_room (u : UART) (sig msg : Nat → Nat) (msglen : Nat) (h : u.m_txBuffer.Inv)
    (hfit : msglen + 4 < 65536) (hc : canSend u msglen = true) :
    handed u sig msg msglen = frame sig msg msglen := by
  obtain ⟨h1, h2, h3⟩ := h
  have hmod : (msglen + 4) % 65536 = msglen + 4 := Nat.mod_eq_of_lt hfit
  have hav : (u.m_txBuffer.m_size + 65536 - u.m_txBuffer.m_datalength) % 65536
      = u.m_txBuffer.m_size - u.m_txBuffer.m_datalength := by omega
  simp only [canSend, UART.transmitBufferAvailableSize, CBuffer.availableSize, hmod, hav,
    decide_eq_true_eq] at hc
  exact handed_eq_frame u sig msg msglen h1 (by omega)

/-- C25, the code at a failing input. On a port just set up with a transmit buffer of 128
bytes, `canSend(65532)` returns true; in the following `send` of a message of 65532 bytes the
signature is queued first, and of the pushes of the message bytes one is rejected by the
full buffer: of the `65536` bytes of the frame the transmit buffer accepts at most `131`. -/
theorem canSend_true_send_overflows :
    canSend (UART.initial.setup 128 128) 65532 = true
      ∧ false ∈ (((UART.initial.setup 128 128).sendBytes exampleSig 2).2.m_txBuffer.pushAll
          ((List.range 65532).map (fun _ => 0))).1
      ∧ (handed (UART.initial.setup 128 128) exampleSig (fun _ => 0) 65532).length ≤ 131 := by
  have hsz : ((UART.initial.setup 128 128).sendBytes exampleSig 2).2.m_txBuffer.m_size
      = 128 := by decide
  have hlen : ((UART.initial.setup 128 128).sendBytes exampleSig 2).2.m_txBuffer.m_datalength
      = 1 := by decide
  refine ⟨by decide, ?_, ?_⟩
  · apply CBuffer.pushAll_rejects
    · rw [hsz]; norm_num
    · rw [hsz, hlen]; norm_num
    · rw [List.length_map, List.length_range, hsz, hlen]
      norm_num
  · have a := UART.accepted_length_le (UART.initial.setup 128 128) exampleSig 2
    have b := UART.accepted_length_room
      ((UART.initial.setup 128 128).sendBytes exampleSig 2).2 (fun _ => 0) 65532
      (by rw [hsz]; norm_num) (by rw [hsz, hlen]; norm_num)
    have c := UART.accepted_length_le
      ((((UART.initial.setup 128 128).sendBytes exampleSig 2).2.sendBytes
        (fun _ => 0) 65532).2)
      (fun i => if i = 0 then (compute_checksum (fun _ => 0) 65532).1
        else (compute_checksum (fun _ => 0) 65532).2) 2
    rw [hsz, hlen] at b
    simp only [handed, List.length_append]
    omega

/-! ### The claim on resynchronisation after clean noise -/

/-- C29. For every signature `sig`, every garbage `g` of which no two adjacent bytes, the byte
`sig[0]` appended, are `(sig[0], sig[1])`, and every valid frame whose message of length
`4 + LENGTH` fits `maxlen`: `receive` reading `g` followed by the frame, with any bytes `rest`
behind it, returns `4 + LENGTH`, has stored the header and payload of the frame in `msg` and
nothing else, and has consumed exactly the bytes of `g` and of the frame: `rest` is left on
the line and the receive buffer is empty. -/
theorem resync_clean_noise (r : UART) (sig msg buf : Nat → Nat) (maxlen : Nat)
    (g rest : List Nat) (hr : r.RxIdle) (hns : noSig sig (g ++ [sig 0]))
    (hmax : msg 2 + 256 * msg 3 + 4 ≤ maxlen) (hmaxlen : maxlen < 65536) :
    ∃ (v : UART) (out : Nat → Nat),
      receive r (g ++ frame sig msg (msg 2 + 256 * msg 3 + 4) ++ rest) sig buf maxlen
          = some (msg 2 + 256 * msg 3 + 4, out, v, rest)
        ∧ (∀ i, out i = if i < msg 2 + 256 * msg 3 + 4 then msg i else buf i)
        ∧ v.m_rxBuffer.size = 0 := by
  generalize hL : msg 2 + 256 * msg 3 = L at hmax ⊢
  obtain ⟨v1, e1, i1⟩ := receive_resync r sig buf maxlen g
    ((List.range (L + 4)).map msg
      ++ (compute_checksum msg (L + 4)).1 :: (compute_checksum msg (L + 4)).2 :: rest) hr hns
  obtain ⟨v, out, e, o1, o2, o3⟩ := afterStart_checked v1 msg buf L maxlen
    (compute_checksum msg (L + 4)).1 (compute_checksum msg (L + 4)).2 rest i1 hL hmax hmaxlen
  refine ⟨v, out, ?_, ?_, o3.1⟩
  · have hline : g ++ frame sig msg (L + 4) ++ rest
        = g ++ sig 0 :: sig 1 :: ((List.range (L + 4)).map msg
            ++ (compute_checksum msg (L + 4)).1 :: (compute_checksum msg (L + 4)).2
              :: rest) := by
      simp only [frame, List.append_assoc, List.cons_append, List.nil_append]
    rw [hline, e1, e, if_pos ⟨rfl, rfl⟩]
  · intro i
    by_cases hi : i < L + 4
    · rw [if_pos hi]
      exact o1 i hi
    · rw [if_neg hi]
      exact o2 i (by omega)

theorem resync_clean_noise_witness :
    noSig exampleSig ([0x00, 0xAA, 0x54] ++ [exampleSig 0])
      ∧ ∃ (v : UART) (out : Nat → Nat),
          receive (UART.initial.setup 128 128)
              ([0x00, 0xAA, 0x54]
                ++ frame exampleSig exampleMsg (exampleMsg 2 + 256 * exampleMsg 3 + 4)
                ++ [1, 2])
              exampleSig (fun _ => 0) 11
            = some (exampleMsg 2 + 256 * exampleMsg 3 + 4, out, v, [1, 2])
          ∧ (∀ i, out i
              = if i < exampleMsg 2 + 256 * exampleMsg 3 + 4 then exampleMsg i
                else (fun _ => 0) i)
          ∧ v.m_rxBuffer.size = 0 :=
  ⟨⟨by decide, by decide, by decide, trivial⟩,
    resync_clean_noise (UART.initial.setup 128 128) exampleSig exampleMsg (fun _ => 0) 11
      [0x00, 0xAA, 0x54] [1, 2] (by decide) ⟨by decide, by decide, by decide, trivial⟩
      (by decide) (by decide)⟩

end Message

namespace Message

/-! ### The addresses that `receive` writes -/

/-- `afterStart` on a line that holds a header whose length field is `L`, where the 16-bit sum
`L + 4` does not exceed `maxlen`, then `L` payload bytes and two bytes `k1`, `k2`: the call
returns, and it has stored the header and all `L` payload bytes, at the addresses `0` to
`L + 3`. -/
theorem afterStart_read (u : UART) (msg buf : Nat → Nat) (L maxlen k1 k2 : Nat)
    (rest : List Nat) (hr : u.RxIdle) (hL : msg 2 + 256 * msg 3 = L)
    (hfit : (L + 4) % 65536 ≤ maxlen) :
    ∃ (v : UART) (out : Nat → Nat) (n : Nat),
      afterStart u ((List.range (L + 4)).map msg ++ k1 :: k2 :: rest) buf maxlen
          = some (n, out, v, rest)
        ∧ (∀ i, i < L + 4 → out i = msg i)
        ∧ (∀ i, L + 4 ≤ i → out i = buf i) := by
  have hline : (List.range (L + 4)).map msg ++ k1 :: k2 :: rest
      = (List.range 4).map msg
          ++ ((List.range L).map (fun i => msg (4 + i)) ++ ([k1, k2] ++ rest)) := by
    rw [map_range_add_four]
    simp only [List.cons_append, List.append_assoc, List.nil_append]
  obtain ⟨v3, e3, i3⟩ := UART.getBytesLoop_idle ((List.range 4).map msg) u
    ((List.range L).map (fun i => msg (4 + i)) ++ ([k1, k2] ++ rest)) buf 0 4 rfl hr
  obtain ⟨v4, e4, i4⟩ := UART.getBytesLoop_idle ((List.range L).map (fun i => msg (4 + i))) v3
    ([k1, k2] ++ rest) (UART.store buf 0 ((List.range 4).map msg)) 4 L
    (by rw [List.length_map, List.length_range]) i3
  obtain ⟨v5, e5, _⟩ := UART.getBytesLoop_idle [k1, k2] v4 rest (fun _ => 0) 0 2 rfl i4
  have hout : ∀ i, UART.store (UART.store buf 0 ((List.range 4).map msg)) 4
      ((List.range L).map (fun i => msg (4 + i))) i = if i < L + 4 then msg i else buf i := by
    intro i
    rw [UART.store_map_range, UART.store_map_range]
    by_cases h1 : i < 4
    · rw [if_neg (by omega), if_pos ⟨by omega, by omega⟩, if_pos (by omega)]
      rfl
    · by_cases h2 : i < L + 4
      · rw [if_pos ⟨by omega, by omega⟩, if_pos h2]
        exact congrArg msg (by omega)
      · rw [if_neg (by omega), if_neg (by omega), if_neg h2]
  have hlen : UART.store buf 0 ((List.range 4).map msg) 2
      + 256 * UART.store buf 0 ((List.range 4).map msg) 3 = L := by
    rw [UART.store_map_range, UART.store_map_range, if_pos ⟨by omega, by omega⟩,
      if_pos ⟨by omega, by omega⟩]
    exact hL
  have key : ∃ n : Nat,
      afterStart u ((List.range (L + 4)).map msg ++ k1 :: k2 :: rest) buf maxlen
        = some (n, UART.store (UART.store buf 0 ((List.range 4).map msg)) 4
            ((List.range L).map (fun i => msg (4 + i))), v5, rest) := by
    rw [hline, afterStart]
    simp only [UART.getBytes, e3, hlen]
    rw [if_neg (by omega)]
    simp only [e4, e5]
    split
    · exact ⟨_, rfl⟩
    · exact ⟨_, rfl⟩
  obtain ⟨n, hn⟩ := key
  exact ⟨v5, _, n, hn, fun i hi => by rw [hout, if_pos hi],
    fun i hi => by rw [hout, if_neg (by omega)]⟩

/-- C27, the code at two failing inputs, both read with the signature `AA 55` into a memory
of zeros. First, `maxlen = 2` and the line `AA 55 01 02 03 00 09`: `receive` returns `0` and
has stored the header byte `03` at index `2`. Second, `maxlen = 11` and a line that holds the
signature, the header `01 02 FC FF` (LENGTH `65532`, for which the 16-bit sum `LENGTH + 4` is
`0`), `65532` payload bytes `07` and two bytes `00`: `receive` returns and has stored payload
bytes at the indices `11` and `65535`. -/
theorem receive_writes_beyond_maxlen :
    (∃ (v : UART) (out : Nat → Nat),
        receive (UART.initial.setup 128 128) [0xAA, 0x55, 0x01, 0x02, 0x03, 0x00, 0x09]
            exampleSig (fun _ => 0) 2 = some (0, out, v, [0x09])
          ∧ out 2 = 0x03)
      ∧ (∃ (v : UART) (out : Nat → Nat) (n : Nat),
          receive (UART.initial.setup 128 128)
              (0xAA :: 0x55 :: ((List.range (65532 + 4)).map
                (fun i => [0x01, 0x02, 0xFC, 0xFF].getD i 0x07) ++ [0x00, 0x00]))
              exampleSig (fun _ => 0) 11 = some (n, out, v, [])
            ∧ out 11 = 0x07 ∧ out 65535 = 0x07) := by
  constructor
  · obtain ⟨v, e, hv⟩ := receive_resync (UART.initial.setup 128 128) exampleSig (fun _ => 0) 2
      [] [0x01, 0x02, 0x03, 0x00, 0x09] (by decide) trivial
    have e2 : receive (UART.initial.setup 128 128)
        [0xAA, 0x55, 0x01, 0x02, 0x03, 0x00, 0x09] exampleSig (fun _ => 0) 2
        = afterStart v [0x01, 0x02, 0x03, 0x00, 0x09] (fun _ => 0) 2 := e
    obtain ⟨w, e3, _⟩ := afterStart_oversize v (fun i => [0x01, 0x02, 0x03, 0x00].getD i 0)
      (fun _ => 0) 2 [0x09] hv (by decide)
    have e4 : afterStart v [0x01, 0x02, 0x03, 0x00, 0x09] (fun _ => 0) 2
        = some (0, UART.store (fun _ => 0) 0
            ((List.range 4).map (fun i => [0x01, 0x02, 0x03, 0x00].getD i 0)), w, [0x09]) :=
      e3
    refine ⟨w, _, e2.trans e4, ?_⟩
    rw [UART.store_map_range, if_pos ⟨by omega, by omega⟩]
    rfl
  · obtain ⟨v, e, hv⟩ := receive_resync (UART.initial.setup 128 128) exampleSig (fun _ => 0) 11
      [] ((List.range (65532 + 4)).map (fun i => [0x01, 0x02, 0xFC, 0xFF].getD i 0x07)
        ++ [0x00, 0x00]) (by decide) trivial
    have e2 : receive (UART.initial.setup 128 128)
        (0xAA :: 0x55 :: ((List.range (65532 + 4)).map
          (fun i => [0x01, 0x02, 0xFC, 0xFF].getD i 0x07) ++ [0x00, 0x00]))
        exampleSig (fun _ => 0) 11
        = afterStart v ((List.range (65532 + 4)).map
            (fun i => [0x01, 0x02, 0xFC, 0xFF].getD i 0x07) ++ [0x00, 0x00])
            (fun _ => 0) 11 := e
    obtain ⟨w, out, n, e3, o1, _⟩ := afterStart_read v
      (fun i => [0x01, 0x02, 0xFC, 0xFF].getD i 0x07) (fun _ => 0) 65532 11 0x00 0x00 [] hv
      (by decide) (by decide)
    exact ⟨w, out, n, e2.trans e3, o1 11 (by norm_num), o1 65535 (by norm_num)⟩

end Message

namespace UART

/-! ### `sendBytes` followed by the runs of the transmit handler -/

theorem transmitService_iterate_buffer (k : Nat) (u : UART) (h : u.m_txBuffer.Inv)
    (hk : k ≤ u.m_txBuffer.m_datalength) :
    (transmitService^[k] u).m_txBuffer = (u.m_txBuffer.popFronts k).2 := by
  induction k generalizing u with
  | zero => rfl
  | succ k ih =>
    have hne : u.m_txBuffer.size ≠ 0 := by simp only [CBuffer.size]; omega
    obtain ⟨_, q2, q3, q4, _⟩ := CBuffer.pop_front_toList u.m_txBuffer h (by omega)
    have hstep : u.transmitService
        = { u with m_txBuffer := u.m_txBuffer.pop_front.2,
                   UDR := u.UDR ++ [u.m_txBuffer.pop_front.1] } := by
      simp only [transmitService, hne, ne_eq, not_false_eq_true, if_true]
    have hT : u.transmitService.m_txBuffer = u.m_txBuffer.pop_front.2 := by rw [hstep]
    have hinv : u.transmitService.m_txBuffer.Inv := by
      rw [hT]
      obtain ⟨h1, h2, h3⟩ := h
      exact ⟨by rw [q3]; exact h1, by rw [q3]; omega,
        by rw [q2, q3]; exact Nat.mod_lt _ (by omega)⟩
    rw [Function.iterate_succ_apply, ih u.transmitService hinv (by rw [hT]; omega), hT]
    rfl

end UART

end Axon
